import Mathlib

/-!
Verification of the dependency-resolution and tree-building core of the
`uasset_helper` repository (files `src/asset.rs`, `src/dependency_tree.rs`,
`src/util.rs`).

Modelling conventions:
* A file-system path (Rust `PathBuf`) is its list of components
  (`List String`); Rust path equality is component-list equality.
  A leading root component is represented by the segment `"/"`, matching
  the way `PathBuf::iter` yields the root directory.
* The file system visible to the program is a finite structure `FS`:
  the set of file paths, the set of directory paths, and for every asset
  file that parses, the list of raw import-reference strings that the
  external `uasset` binary parser would produce for it
  (`AssetHeader::package_import_iter`).  `exists` is membership in either
  list, `is_file` is membership in the file list.
* Rust `HashSet<PathBuf>` is a list with set-semantics insertion.
  `HashSet<AssetError>` is delicate: `AssetError` derives `Hash` (which
  hashes both `path` and `reason`) while `PartialEq` compares only `path`.
  Assuming no hash collisions, an insertion is therefore skipped exactly
  when an element with the same `path` and the same `reason` is present;
  elements with equal path but different reason land in different buckets
  and are both kept.  The model implements precisely that semantics.
* The global `NODE_ID_COUNTER` (reset at the start of every build) is the
  `nextId` field of the builder state, starting at 0.
* `Vec::pop` takes from the back; the model stores the work list with the
  top at the head, so pushes `cons` and pops take the head, preserving the
  LIFO order of the Rust code.
* Rust `HashMap` tables (`nodes`, `node_connections`, `recurse_depths`)
  are association lists; every inserted key is freshly allocated, so
  insertion is append and `get` is first-match lookup.
* Reason strings follow the source with apostrophes elided; the long
  `Script` remark is truncated and the open/parse error texts are merged
  into fixed strings, since only the identity of reasons matters.
* `DepTree::build` unwraps `asset_dirs.asset_file_path` and
  `asset_dirs.content_dir`; the model takes those two values (and the
  optional engine content dir and the plugin dirs) as parameters,
  corresponding to the non-panicking executions.
-/

namespace UA

/-- A file-system path as its list of components. -/
abbrev FilePath := List String

/-- `AssetError` from `src/asset.rs`: a failed path plus a reason. -/
structure AssetError where
  path : FilePath
  reason : String
deriving DecidableEq, Repr

/-- `AssetOrigin` from `src/asset.rs`. -/
inductive AssetOrigin where
  | Project
  | Engine
  | ProjectPlugin
  | EnginePlugin
deriving DecidableEq, Repr

/-- The `match (is_engine, is_plugin)` table in `Asset::new`. -/
def originOfPair : Bool → Bool → AssetOrigin
  | true, true => AssetOrigin.EnginePlugin
  | true, false => AssetOrigin.Engine
  | false, true => AssetOrigin.ProjectPlugin
  | false, false => AssetOrigin.Project

/-- The file system as the program observes it: files, directories, and the
import-reference strings the external binary parser yields per parsable
asset file. -/
structure FS where
  files : List FilePath
  dirs : List FilePath
  assetImports : List (FilePath × List String)
deriving DecidableEq, Repr

/-- Rust `Path::exists` (read-only stat). -/
def FS.existsPath (fs : FS) (p : FilePath) : Bool :=
  fs.files.contains p || fs.dirs.contains p

/-- Rust `Path::is_file`. -/
def FS.isFile (fs : FS) (p : FilePath) : Bool :=
  fs.files.contains p

/-- All entries a directory walk can see. -/
def FS.allPaths (fs : FS) : List FilePath :=
  fs.dirs ++ fs.files

/-- Splitting a character list at a separator character, mirroring Rust
`str::split` (an empty input yields one empty chunk). -/
def splitChar (c : Char) : List Char → List (List Char)
  | [] => [[]]
  | d :: rest =>
    match splitChar c rest with
    | [] => [[d]]
    | chunk :: rest2 => if d = c then [] :: chunk :: rest2 else (d :: chunk) :: rest2

/-- Rust `str::split('/')` producing strings. -/
def splitSlash (s : String) : List String :=
  (splitChar '/' s.toList).map String.mk

/-- Rust `str::ends_with`. -/
def strEndsWith (s suffixStr : String) : Bool :=
  suffixStr.toList.isSuffixOf s.toList

/-- Whether a string begins with the path separator. -/
def startsWithSlash (s : String) : Bool :=
  match s.toList with
  | '/' :: _ => true
  | _ => false

/-- Components of `PathBuf::from(s)`: a leading root becomes the `"/"`
segment, empty segments collapse (the model does not use `.`/`..`
segments). -/
def pathOfString (s : String) : FilePath :=
  if startsWithSlash s then "/" :: (splitSlash s).filter (fun seg => seg != "")
  else (splitSlash s).filter (fun seg => seg != "")

/-- Rust `Path::join(s)` for a string argument: an absolute argument
replaces the base path. -/
def joinPathStr (base : FilePath) (s : String) : FilePath :=
  if startsWithSlash s then pathOfString s
  else base ++ (splitSlash s).filter (fun seg => seg != "")

/-- Whether `path.extension() == Some("uasset")` holds for the last
component (Rust yields no extension for the bare name `.uasset`). -/
def hasUassetExt (p : FilePath) : Bool :=
  match p.getLast? with
  | some seg => strEndsWith seg ".uasset" && seg != ".uasset"
  | none => false

/-- `AssetDirs::is_engine_path` from `src/asset.rs`: take components up to
the first `Engine` segment, re-append `Engine`, and require that the
resulting directory and its `Content` child exist. -/
def isEnginePathFull (fs : FS) (p : FilePath) : Bool × Option (FilePath × FilePath) :=
  let enginePath := (p.takeWhile (fun seg => seg != "Engine")) ++ ["Engine"]
  if enginePath == p || !fs.existsPath enginePath then (false, none)
  else
    let engineContentDir := enginePath ++ ["Content"]
    if fs.existsPath engineContentDir then (true, some (enginePath, engineContentDir))
    else (false, none)

/-- The plugin test inside `Asset::new`: take components up to the first
`Plugins` segment, re-append `Plugins`, and require the result to differ
from the full path and to exist. -/
def isPluginPath (fs : FS) (p : FilePath) : Bool :=
  let pluginPath := (p.takeWhile (fun seg => seg != "Plugins")) ++ ["Plugins"]
  pluginPath != p && fs.existsPath pluginPath

/-- `Asset::read_asset`: existence check, then the external parse, whose
open and parse failures the model merges into one reason string. -/
def readAsset (fs : FS) (p : FilePath) : Except AssetError (List String) :=
  if fs.existsPath p then
    match fs.assetImports.lookup p with
    | some imps => Except.ok imps
    | none => Except.error ⟨p, "Failed to read asset: parse failure"⟩
  else Except.error ⟨p, "Could not find asset"⟩

/-- `Asset` from `src/asset.rs`: resolved path, origin classification, and
the import-reference strings of its header. -/
structure Asset where
  path : FilePath
  origin : AssetOrigin
  imports : List String
deriving DecidableEq, Repr

/-- `Asset::new`: reject non-files and wrong extensions, read the header,
then classify the origin from the path and the file system. -/
def Asset.new (fs : FS) (assetPath : FilePath) : Except AssetError Asset :=
  if !(fs.isFile assetPath && hasUassetExt assetPath) then
    Except.error ⟨assetPath, "File does not exist or is not a .uasset file"⟩
  else
    match readAsset fs assetPath with
    | Except.error e => Except.error e
    | Except.ok imps =>
      let isPlug := isPluginPath fs assetPath
      let isEng := (isEnginePathFull fs assetPath).fst
      Except.ok ⟨assetPath, originOfPair isEng isPlug, imps⟩

/-- The root-directory configuration `DepTree::build` actually reads
(after its unwraps): the project content dir, the optional engine content
dir and the plugin root dirs. -/
structure AssetDirsCfg where
  contentDir : FilePath
  engineContentDir : Option FilePath
  pluginsDirs : List FilePath
deriving DecidableEq, Repr

/-- The `walkdir` search of one plugin root (depth at most 10) for entries
named `rootDir` that contain an existing `Content` child, yielding those
`Content` directories. -/
def walkCandidates (fs : FS) (rootDir : String) (pluginsDir : FilePath) : List FilePath :=
  (fs.allPaths.filter (fun p =>
    pluginsDir.isPrefixOf p && p.length - pluginsDir.length ≤ 10 &&
      p.getLast? == some rootDir)).filterMap (fun p =>
        let contentDir := p ++ ["Content"]
        if fs.existsPath contentDir then some contentDir else none)

/-- Resolution of one raw import reference, the closure body of
`Asset::get_dependency_asset_paths`.  `none` models the early return when
the segment list is empty (dead code, since splitting always yields at
least one segment). -/
def resolveOne (cfg : AssetDirsCfg) (fs : FS) (name : String) :
    Option (Except AssetError FilePath) :=
  let dep := if strEndsWith name ".uasset" then name else name ++ ".uasset"
  let segments := splitSlash (dep.drop 1)
  match segments with
  | [] => none
  | rootFolder :: rest =>
    some <|
      if rootFolder == "Game" then
        let path := joinPathStr cfg.contentDir (String.intercalate "/" rest)
        if fs.existsPath path then Except.ok path
        else Except.error ⟨path, "The asset does not exist in the game content directory"⟩
      else if rootFolder == "Engine" then
        match cfg.engineContentDir with
        | some ecd =>
          let path := joinPathStr ecd (String.intercalate "/" rest)
          if fs.existsPath path then Except.ok path
          else Except.error ⟨path, "The asset does not exist in the engine content directory"⟩
        | none => Except.error ⟨pathOfString dep, "Engine content directory is not set!"⟩
      else if rootFolder == "Script" then
        Except.error ⟨pathOfString dep, "Need to figure out what this folder is for yet"⟩
      else
        let candidateDirs :=
          (cfg.pluginsDirs.flatMap (walkCandidates fs rootFolder)).dedup
        match candidateDirs.findSome? (fun candidateDir =>
          let path := joinPathStr candidateDir (String.intercalate "/" rest)
          if fs.existsPath path then some path else none) with
        | some filePath => Except.ok filePath
        | none => Except.error ⟨pathOfString dep, "Couldnt find the asset in any of the plugins directories"⟩

/-- One step of the fold in `Asset::get_dependency_asset_paths`: push the
resolved path or the failure onto the respective side
(`SplitVecContainer::push_left` / `push_right`). -/
def depStep (cfg : AssetDirsCfg) (fs : FS) (acc : List FilePath × List AssetError)
    (name : String) : List FilePath × List AssetError :=
  match resolveOne cfg fs name with
  | none => acc
  | some (Except.ok p) => (acc.1 ++ [p], acc.2)
  | some (Except.error e) => (acc.1, acc.2 ++ [e])

/-- `Asset::get_dependency_asset_paths`: fold the import names into the
successes/failures pair. -/
def getDeps (cfg : AssetDirsCfg) (fs : FS) (names : List String) :
    List FilePath × List AssetError :=
  names.foldl (depStep cfg fs) ([], [])

/-- The locals of `DepTree::build` during the work-list loop. -/
structure BuildState where
  nodes : List (Nat × Asset)
  conns : List (Nat × List Nat)
  knownPaths : List FilePath
  failures : List AssetError
  depths : List (Nat × Nat)
  frontier : List Nat
  nextId : Nat
deriving DecidableEq, Repr

/-- `HashSet<AssetError>::insert` under the derived `Hash` over
`(path, reason)` and the manual `PartialEq` over `path` (see the module
comment): kept unless an element with the same path and reason exists. -/
def insertFailure (fails : List AssetError) (e : AssetError) : List AssetError :=
  if fails.any (fun f => f.path == e.path && f.reason == e.reason) then fails
  else fails ++ [e]

/-- `HashSet<AssetError>::extend`. -/
def extendFailures (fails : List AssetError) (newFails : List AssetError) : List AssetError :=
  newFails.foldl insertFailure fails

/-- `HashSet<PathBuf>::insert`. -/
def insertKnown (known : List FilePath) (p : FilePath) : List FilePath :=
  if known.contains p then known else known ++ [p]

/-- `node_connections.entry(parent).or_default().push(child)`. -/
def connsPush (conns : List (Nat × List Nat)) (parent child : Nat) :
    List (Nat × List Nat) :=
  if conns.any (fun pr => pr.1 == parent) then
    conns.map (fun pr => if pr.1 == parent then (pr.1, pr.2 ++ [child]) else pr)
  else conns ++ [(parent, [child])]

/-- Placeholder for the `nodes.get(&cur_node_id).unwrap()` lookup; on every
state the build reaches the lookup succeeds, so this value is never used. -/
def defaultAsset : Asset := ⟨[], AssetOrigin.Project, []⟩

/-- The per-asset body of the `nodes.extend(...)` closure: allocate the
fresh id `st.nextId`, push it on the frontier, record the edge from `cur`,
record the depth `depth(cur) + 1`, and insert the node. -/
def addNode (cur : Nat) (st : BuildState) (a : Asset) : BuildState :=
  { st with
    frontier := st.nextId :: st.frontier,
    conns := connsPush st.conns cur st.nextId,
    depths := st.depths ++ [(st.nextId, (st.depths.lookup cur).getD 0 + 1)],
    nodes := st.nodes ++ [(st.nextId, a)],
    nextId := st.nextId + 1 }

/-- The filter computing `unresolved_deps`: drop paths already known or
already present (by path) in the failure set, both read before the new
failures are merged. -/
def freshDeps (st : BuildState) (ps : List FilePath) : List FilePath :=
  ps.filter (fun p =>
    !st.knownPaths.contains p && !st.failures.any (fun f => f.path == p))

/-- Successes of the `Asset::new` batch (`SplitVecContainer` left part). -/
def okAssets (rs : List (Except AssetError Asset)) : List Asset :=
  rs.filterMap (fun r => match r with
    | Except.ok a => some a
    | Except.error _ => none)

/-- Failures of the `Asset::new` batch (`SplitVecContainer` right part). -/
def errAssets (rs : List (Except AssetError Asset)) : List AssetError :=
  rs.filterMap (fun r => match r with
    | Except.ok _ => none
    | Except.error e => some e)

/-- The list of dependency paths the current node resolves
(`get_dependency_asset_paths` output, first component) together with its
resolution failures (second component). -/
def stepDeps (cfg : AssetDirsCfg) (fs : FS) (st : BuildState) (cur : Nat) :
    List FilePath × List AssetError :=
  getDeps cfg fs ((st.nodes.lookup cur).getD defaultAsset).imports

/-- The `Asset::new` outcomes for the unresolved dependency paths of the
current node. -/
def stepResults (cfg : AssetDirsCfg) (fs : FS) (st : BuildState) (cur : Nat) :
    List (Except AssetError Asset) :=
  (freshDeps st (stepDeps cfg fs st cur).1).map (Asset.new fs)

/-- The state after merging the resolution failures and the `Asset::new`
failures into the failure set and caching the new known paths, before the
`nodes.extend` loop runs. -/
def stepMid (cfg : AssetDirsCfg) (fs : FS) (st : BuildState) (cur : Nat) : BuildState :=
  { st with
    failures := extendFailures (extendFailures st.failures (stepDeps cfg fs st cur).2)
      (errAssets (stepResults cfg fs st cur)),
    knownPaths := ((okAssets (stepResults cfg fs st cur)).map (fun a => a.path)).foldl
      insertKnown st.knownPaths }

/-- One iteration of the `while let Some(cur_node_id) = ...pop()` body,
after the pop: skip if the depth bound is reached, otherwise resolve the
dependencies, merge failures, cache known paths and create the nodes. -/
def stepNode (cfg : AssetDirsCfg) (fs : FS) (maxDepth : Nat)
    (st : BuildState) (cur : Nat) : BuildState :=
  if (st.depths.lookup cur).getD 0 ≥ maxDepth then st
  else (okAssets (stepResults cfg fs st cur)).foldl (addNode cur) (stepMid cfg fs st cur)

/-- The work-list loop, driven by explicit fuel (each unit of fuel allows
one pop).  `DepTree.build` supplies enough fuel for the loop to run until
the frontier is empty (theorem `finalState_frontier_nil`). -/
def buildLoop (cfg : AssetDirsCfg) (fs : FS) (maxDepth : Nat) :
    Nat → BuildState → BuildState
  | 0, st => st
  | Nat.succ fuel, st =>
    match st.frontier with
    | [] => st
    | cur :: rest =>
      buildLoop cfg fs maxDepth fuel
        (stepNode cfg fs maxDepth { st with frontier := rest } cur)

/-- The largest import-list length of any parsable asset on the file
system. -/
def capOf (fs : FS) : Nat :=
  fs.assetImports.foldl (fun m pr => max m pr.2.length) 0

/-- Fuel that always suffices: the loop measure (frontier length plus a
weighted count of files not yet known) never exceeds this bound. -/
def fuelBound (fs : FS) : Nat :=
  (capOf fs + 2) * (fs.files.dedup.length + 1) + 1

/-- The state after seeding the tables with the root node (id 0, depth 0);
the frontier is seeded only when the loop will run (`max_recurse_depth > 0`). -/
def initState (root : Asset) (maxDepth : Nat) : BuildState :=
  { nodes := [(0, root)],
    conns := [],
    knownPaths := [root.path],
    failures := [],
    depths := [(0, 0)],
    frontier := if maxDepth > 0 then [0] else [],
    nextId := 1 }

/-- The loop state when the work list has been fully drained. -/
def finalState (cfg : AssetDirsCfg) (fs : FS) (maxDepth : Nat) (root : Asset) :
    BuildState :=
  buildLoop cfg fs maxDepth (fuelBound fs) (initState root maxDepth)

/-- `DepTree` from `src/dependency_tree.rs`. -/
structure DepTree where
  rootNodeId : Nat
  nodes : List (Nat × Asset)
  nodeConnections : List (Nat × List Nat)
  failures : List AssetError
  maxRecurseDepth : Nat
  recurseDepths : List (Nat × Nat)
deriving DecidableEq, Repr

/-- `DepTree::build` for the non-panicking executions: construct the root
asset (the only fatal failure), run the work-list loop, assemble the
result. -/
def DepTree.build (fs : FS) (rootPath : FilePath) (cfg : AssetDirsCfg)
    (maxDepth : Nat) : Except AssetError DepTree :=
  match Asset.new fs rootPath with
  | Except.error e => Except.error e
  | Except.ok root =>
    let st := finalState cfg fs maxDepth root
    Except.ok ⟨0, st.nodes, st.conns, st.failures, maxDepth, st.depths⟩

/-- `DepTree::get_node`. -/
def DepTree.getNode (t : DepTree) (id : Nat) : Option Asset :=
  t.nodes.lookup id

/-- `DepTree::get_node_connections`. -/
def DepTree.getNodeConnections (t : DepTree) (id : Nat) : List Nat :=
  (t.nodeConnections.lookup id).getD []

/-- `DepTree::get_recurse_depth`. -/
def DepTree.getRecurseDepth (t : DepTree) (id : Nat) : Option Nat :=
  t.recurseDepths.lookup id

/-- `DepTree::get_parent_node_id`: first adjacency entry whose child list
contains the id. -/
def DepTree.getParentNodeId (t : DepTree) (id : Nat) : Option Nat :=
  (t.nodeConnections.find? (fun pr => pr.2.contains id)).map (fun pr => pr.1)

/-- `DepTree::find_node_by_path`: linear scan by exact path equality. -/
def DepTree.findNodeByPath (t : DepTree) (p : FilePath) : Option Asset :=
  (t.nodes.find? (fun pr => pr.2.path == p)).map (fun pr => pr.2)

/-! ### Generic list lemmas -/

theorem contains_true_iff {α : Type} [BEq α] [LawfulBEq α] (l : List α) (x : α) :
    l.contains x = true ↔ x ∈ l := by
  rw [List.contains]
  exact List.elem_iff

theorem any_false_all {α : Type} {l : List α} {p : α → Bool} (h : l.any p = false) :
    ∀ x ∈ l, p x = false := by
  intro x hx
  cases hpx : p x with
  | false => rfl
  | true =>
    have : l.any p = true := List.any_eq_true.mpr ⟨x, hx, hpx⟩
    rw [h] at this
    exact absurd this Bool.false_ne_true

theorem lookup_mem {α β : Type} [BEq α] [LawfulBEq α] {l : List (α × β)} {k : α} {v : β}
    (h : l.lookup k = some v) : (k, v) ∈ l := by
  induction l with
  | nil => simp [List.lookup] at h
  | cons pr rest ih =>
    obtain ⟨k', v'⟩ := pr
    by_cases hk : k = k'
    · subst hk
      simp [List.lookup] at h
      subst h
      exact List.mem_cons_self _ _
    · have hb : (k == k') = false := beq_eq_false_iff_ne.mpr hk
      simp only [List.lookup, hb] at h
      exact List.mem_cons_of_mem _ (ih h)

theorem lookup_append_some {α β : Type} [BEq α] [LawfulBEq α] {l l₂ : List (α × β)} {k : α}
    {v : β} (h : l.lookup k = some v) : (l ++ l₂).lookup k = some v := by
  induction l with
  | nil => simp [List.lookup] at h
  | cons pr rest ih =>
    obtain ⟨k', v'⟩ := pr
    cases hb : (k == k') with
    | true =>
      simp only [List.cons_append, List.lookup, hb] at h ⊢
      exact h
    | false =>
      simp only [List.cons_append, List.lookup, hb] at h ⊢
      exact ih h

theorem lookup_append_none {α β : Type} [BEq α] [LawfulBEq α] {l : List (α × β)} {k : α}
    (l₂ : List (α × β)) (h : l.lookup k = none) :
    (l ++ l₂).lookup k = l₂.lookup k := by
  induction l with
  | nil => simp
  | cons pr rest ih =>
    obtain ⟨k', v'⟩ := pr
    cases hb : (k == k') with
    | true => simp only [List.lookup, hb] at h; exact absurd h (by simp)
    | false =>
      simp only [List.cons_append, List.lookup, hb] at h ⊢
      exact ih h

theorem lookup_none {α β : Type} [BEq α] [LawfulBEq α] {l : List (α × β)} {k : α}
    (h : ∀ pr ∈ l, pr.1 ≠ k) : l.lookup k = none := by
  induction l with
  | nil => simp [List.lookup]
  | cons pr rest ih =>
    obtain ⟨k', v'⟩ := pr
    have hk : k ≠ k' := fun he => (h (k', v') (List.mem_cons_self _ _)) (by simp [he])
    have hb : (k == k') = false := beq_eq_false_iff_ne.mpr hk
    simp only [List.lookup, hb]
    exact ih (fun pr hpr => h pr (List.mem_cons_of_mem _ hpr))

theorem lookup_singleton {α β : Type} [BEq α] [LawfulBEq α] (k : α) (v : β) :
    ([(k, v)] : List (α × β)).lookup k = some v := by
  simp [List.lookup]

/-- Appending an entry with a fresh `Nat` key makes it visible to lookup. -/
theorem lookup_append_fresh {β : Type} {l : List (Nat × β)} {n : Nat} {v : β}
    (hlt : ∀ pr ∈ l, pr.1 < n) : (l ++ [(n, v)]).lookup n = some v := by
  rw [lookup_append_none _ (lookup_none (fun pr hpr => Nat.ne_of_lt (hlt pr hpr)))]
  exact lookup_singleton n v

/-! ### Lemmas about the known-path set -/

theorem insertKnown_mem_of {ks : List FilePath} {x p : FilePath} (h : x ∈ ks) :
    x ∈ insertKnown ks p := by
  unfold insertKnown
  split
  · exact h
  · exact List.mem_append_left _ h

theorem insertKnown_self (ks : List FilePath) (p : FilePath) : p ∈ insertKnown ks p := by
  unfold insertKnown
  split
  · rename_i hc
    exact (contains_true_iff ks p).mp hc
  · exact List.mem_append_right _ (by simp)

theorem mem_of_insertKnown {ks : List FilePath} {x p : FilePath}
    (h : x ∈ insertKnown ks p) : x ∈ ks ∨ x = p := by
  unfold insertKnown at h
  split at h
  · exact Or.inl h
  · rcases List.mem_append.mp h with h | h
    · exact Or.inl h
    · exact Or.inr (by simpa using h)

theorem foldl_insert_mem_of {ps : List FilePath} :
    ∀ {ks : List FilePath} {x : FilePath}, x ∈ ks → x ∈ ps.foldl insertKnown ks := by
  induction ps with
  | nil => intro ks x h; simpa using h
  | cons p ps ih =>
    intro ks x h
    rw [List.foldl_cons]
    exact ih (insertKnown_mem_of h)

theorem foldl_insert_mem_el {ps : List FilePath} :
    ∀ {ks : List FilePath} {p : FilePath}, p ∈ ps → p ∈ ps.foldl insertKnown ks := by
  induction ps with
  | nil => intro ks p h; simp at h
  | cons q ps ih =>
    intro ks p h
    rw [List.foldl_cons]
    rcases List.mem_cons.mp h with h | h
    · subst h
      exact foldl_insert_mem_of (insertKnown_self ks p)
    · exact ih h

theorem mem_of_foldl_insert {ps : List FilePath} :
    ∀ {ks : List FilePath} {x : FilePath}, x ∈ ps.foldl insertKnown ks → x ∈ ks ∨ x ∈ ps := by
  induction ps with
  | nil =>
    intro ks x h
    rw [List.foldl_nil] at h
    exact Or.inl h
  | cons p ps ih =>
    intro ks x h
    rw [List.foldl_cons] at h
    rcases ih h with h | h
    · rcases mem_of_insertKnown h with h | h
      · exact Or.inl h
      · exact Or.inr (by simp [h])
    · exact Or.inr (List.mem_cons_of_mem _ h)

/-! ### Lemmas about the adjacency-table update -/

/-- All recorded child ids, in adjacency-table order. -/
def flatChildren (conns : List (Nat × List Nat)) : List Nat :=
  conns.flatMap (fun pr => pr.2)

theorem flatChildren_nil : flatChildren [] = [] := rfl

theorem flatChildren_cons (q : Nat × List Nat) (rest : List (Nat × List Nat)) :
    flatChildren (q :: rest) = q.2 ++ flatChildren rest := rfl

theorem flatChildren_append (l l₂ : List (Nat × List Nat)) :
    flatChildren (l ++ l₂) = flatChildren l ++ flatChildren l₂ := by
  simp [flatChildren]

theorem connsPush_keys_nodup {conns : List (Nat × List Nat)} {cur id : Nat}
    (h : (conns.map (fun pr => pr.1)).Nodup) :
    ((connsPush conns cur id).map (fun pr => pr.1)).Nodup := by
  unfold connsPush
  split
  · have he : (conns.map (fun pr => if pr.1 == cur then (pr.1, pr.2 ++ [id]) else pr)).map
        (fun pr => pr.1) = conns.map (fun pr => pr.1) := by
      rw [List.map_map]
      apply List.map_congr_left
      intro pr _
      by_cases hc : (pr.1 == cur) = true
      · simp only [Function.comp]
        rw [if_pos hc]
      · have hb : (pr.1 == cur) = false := Bool.eq_false_iff.mpr hc
        simp only [Function.comp]
        rw [if_neg (by simp [hb])]
    rw [he]
    exact h
  · rename_i hany
    have hany' : conns.any (fun pr => pr.1 == cur) = false := by
      cases hb : conns.any (fun pr => pr.1 == cur) with
      | false => rfl
      | true => exact absurd hb hany
    have hcur : cur ∉ conns.map (fun pr => pr.1) := by
      intro hmem
      rcases List.mem_map.mp hmem with ⟨pr, hpr, hekey⟩
      have := any_false_all hany' pr hpr
      rw [hekey] at this
      simp at this
    have he : (conns ++ [(cur, [id])]).map (fun pr => pr.1) =
        conns.map (fun pr => pr.1) ++ [cur] := by simp
    rw [he]
    refine List.Nodup.append h (List.nodup_singleton cur) ?_
    intro x hx hx2
    rw [List.mem_singleton] at hx2
    subst hx2
    exact hcur hx

theorem connsPush_mem_mono {conns : List (Nat × List Nat)} {cur id : Nat}
    {pr : Nat × List Nat} (h : pr ∈ conns) :
    ∃ cs, (pr.1, cs) ∈ connsPush conns cur id ∧ ∀ x ∈ pr.2, x ∈ cs := by
  unfold connsPush
  split
  · by_cases hc : (pr.1 == cur) = true
    · refine ⟨pr.2 ++ [id], ?_, fun x hx => List.mem_append_left _ hx⟩
      have he : (pr.1, pr.2 ++ [id]) =
          (fun q => if q.1 == cur then (q.1, q.2 ++ [id]) else q) pr := by simp [hc]
      rw [he]
      exact List.mem_map_of_mem _ h
    · refine ⟨pr.2, ?_, fun x hx => hx⟩
      have he : (pr.1, pr.2) =
          (fun q => if q.1 == cur then (q.1, q.2 ++ [id]) else q) pr := by simp [hc]
      rw [he]
      exact List.mem_map_of_mem _ h
  · exact ⟨pr.2, List.mem_append_left _ (by simpa using h), fun x hx => hx⟩

theorem connsPush_mem_new (conns : List (Nat × List Nat)) (cur id : Nat) :
    ∃ cs, (cur, cs) ∈ connsPush conns cur id ∧ id ∈ cs := by
  unfold connsPush
  split
  · rename_i hany
    rcases List.any_eq_true.mp hany with ⟨pr, hpr, hc⟩
    have hekey : pr.1 = cur := by simpa using hc
    refine ⟨pr.2 ++ [id], ?_, List.mem_append_right _ (by simp)⟩
    have he : (cur, pr.2 ++ [id]) =
        (fun q => if q.1 == cur then (q.1, q.2 ++ [id]) else q) pr := by simp [hc, hekey]
    rw [he]
    exact List.mem_map_of_mem _ hpr
  · exact ⟨[id], List.mem_append_right _ (by simp), by simp⟩

theorem mem_connsPush {conns : List (Nat × List Nat)} {cur id : Nat} {pr : Nat × List Nat}
    (h : pr ∈ connsPush conns cur id) :
    pr ∈ conns ∨ (∃ cs, (cur, cs) ∈ conns ∧ pr = (cur, cs ++ [id])) ∨ pr = (cur, [id]) := by
  unfold connsPush at h
  split at h
  · rcases List.mem_map.mp h with ⟨q, hq, he⟩
    by_cases hc : (q.1 == cur) = true
    · right; left
      have hekey : q.1 = cur := by simpa using hc
      refine ⟨q.2, ?_, ?_⟩
      · rw [← hekey]
        simpa using hq
      · rw [← he]
        simp [hc, hekey]
    · left
      have hb : (q.1 == cur) = false := by
        cases hb2 : (q.1 == cur) with
        | false => rfl
        | true => exact absurd hb2 hc
      rw [← he]
      simpa [hb] using hq
  · rcases List.mem_append.mp h with h | h
    · exact Or.inl h
    · right; right
      simpa using h

/-- An adjacency table without the updated key is unchanged by the map in
`connsPush`. -/
theorem connsPush_map_id {conns : List (Nat × List Nat)} {cur id : Nat}
    (hkeys : ∀ pr ∈ conns, pr.1 ≠ cur) :
    conns.map (fun pr => if pr.1 == cur then (pr.1, pr.2 ++ [id]) else pr) = conns := by
  conv_rhs => rw [← List.map_id conns]
  apply List.map_congr_left
  intro pr hpr
  have hb : (pr.1 == cur) = false := beq_eq_false_iff_ne.mpr (hkeys pr hpr)
  rw [if_neg (by simp [hb])]
  rfl

theorem count_singleton_ite (j x : Nat) :
    ([x] : List Nat).count j = if j = x then 1 else 0 := by
  by_cases h : j = x <;> simp [h]

theorem count_flatChildren_connsPush {conns : List (Nat × List Nat)} {cur id : Nat}
    (hnodup : (conns.map (fun pr => pr.1)).Nodup) (j : Nat) :
    (flatChildren (connsPush conns cur id)).count j ≤
      (flatChildren conns).count j + (if j = id then 1 else 0) := by
  unfold connsPush
  split
  · clear * - hnodup
    induction conns with
    | nil => simp [flatChildren]
    | cons q rest ih =>
      have hq_not : q.1 ∉ rest.map (fun pr => pr.1) := (List.nodup_cons.mp (by simpa using hnodup)).1
      have hnr : (rest.map (fun pr => pr.1)).Nodup := (List.nodup_cons.mp (by simpa using hnodup)).2
      rw [List.map_cons]
      by_cases hc : (q.1 == cur) = true
      · have hekey : q.1 = cur := by simpa using hc
        have hrest_id : rest.map (fun pr => if pr.1 == cur then (pr.1, pr.2 ++ [id]) else pr)
            = rest := by
          apply connsPush_map_id
          intro pr hpr hcontra
          exact hq_not (by
            rw [hekey, ← hcontra]
            exact List.mem_map_of_mem _ hpr)
        rw [hrest_id, if_pos hc, flatChildren_cons, flatChildren_cons]
        simp only [List.count_append, count_singleton_ite]
        omega
      · have hb : (q.1 == cur) = false := Bool.eq_false_iff.mpr hc
        rw [if_neg (by simp [hb]), flatChildren_cons, flatChildren_cons]
        simp only [List.count_append]
        have := ih hnr
        omega
  · rw [flatChildren_append, flatChildren_cons, flatChildren_nil, List.count_append,
      List.count_append, count_singleton_ite]
    simp

theorem count_flatChildren_zero {conns : List (Nat × List Nat)} {n : Nat}
    (h : ∀ pr ∈ conns, ∀ c ∈ pr.2, c < n) : (flatChildren conns).count n = 0 := by
  rw [List.count_eq_zero]
  intro hmem
  rcases List.mem_flatMap.mp hmem with ⟨pr, hpr, hc⟩
  exact absurd (h pr hpr n hc) (lt_irrefl n)

/-! ### Lemmas about dependency resolution and asset creation -/

theorem getDeps_foldl_len (cfg : AssetDirsCfg) (fs : FS) (names : List String) :
    ∀ acc : List FilePath × List AssetError,
      (names.foldl (depStep cfg fs) acc).1.length ≤ acc.1.length + names.length := by
  induction names with
  | nil => intro acc; simp
  | cons name names ih =>
    intro acc
    rw [List.foldl_cons]
    have h1 := ih (depStep cfg fs acc name)
    have h2 : (depStep cfg fs acc name).1.length ≤ acc.1.length + 1 := by
      unfold depStep
      cases hres : resolveOne cfg fs name with
      | none => simp
      | some r => cases r with
        | ok p => simp
        | error e => simp
    simp only [List.length_cons]
    omega

theorem getDeps_len (cfg : AssetDirsCfg) (fs : FS) (names : List String) :
    (getDeps cfg fs names).1.length ≤ names.length := by
  have := getDeps_foldl_len cfg fs names ([], [])
  simpa [getDeps] using this

theorem getDeps_nil (cfg : AssetDirsCfg) (fs : FS) : getDeps cfg fs [] = ([], []) := rfl

theorem okAssets_mem {rs : List (Except AssetError Asset)} {a : Asset}
    (h : a ∈ okAssets rs) : Except.ok a ∈ rs := by
  rcases List.mem_filterMap.mp h with ⟨r, hr, he⟩
  cases r with
  | ok b =>
    simp at he
    subst he
    exact hr
  | error e => simp at he

theorem okAssets_of_map {fs : FS} {ps : List FilePath} {a : Asset}
    (h : a ∈ okAssets (ps.map (Asset.new fs))) : ∃ p ∈ ps, Asset.new fs p = Except.ok a := by
  rcases List.mem_map.mp (okAssets_mem h) with ⟨p, hp, he⟩
  exact ⟨p, hp, he⟩

theorem Asset_new_ok {fs : FS} {p : FilePath} {a : Asset}
    (h : Asset.new fs p = Except.ok a) :
    a.path = p ∧ fs.isFile p = true ∧ hasUassetExt p = true ∧
      fs.assetImports.lookup p = some a.imports ∧
      a.origin = originOfPair (isEnginePathFull fs p).fst (isPluginPath fs p) := by
  unfold Asset.new at h
  split at h
  · exact absurd h (by simp)
  · rename_i hcond
    have hb : (fs.isFile p && hasUassetExt p) = true := by
      by_contra hcontra
      have hf : (fs.isFile p && hasUassetExt p) = false := Bool.eq_false_iff.mpr hcontra
      rw [hf] at hcond
      simp at hcond
    obtain ⟨hfile, hext⟩ := Bool.and_eq_true_iff.mp hb
    cases hread : readAsset fs p with
    | error e =>
      rw [hread] at h
      exact absurd h (by simp)
    | ok imps =>
      rw [hread] at h
      simp only [Except.ok.injEq] at h
      have hlk : fs.assetImports.lookup p = some imps := by
        unfold readAsset at hread
        split at hread
        · cases hlk2 : fs.assetImports.lookup p with
          | some i2 =>
            rw [hlk2] at hread
            simp only [Except.ok.injEq] at hread
            rw [hread]
          | none =>
            rw [hlk2] at hread
            exact absurd hread (by simp)
        · exact absurd hread (by simp)
      subst h
      exact ⟨rfl, hfile, hext, hlk, rfl⟩

theorem capOf_init_le : ∀ (l : List (FilePath × List String)) (acc : Nat),
    acc ≤ l.foldl (fun m pr => max m pr.2.length) acc := by
  intro l
  induction l with
  | nil => intro acc; simp
  | cons pr rest ih =>
    intro acc
    rw [List.foldl_cons]
    exact le_trans (Nat.le_max_left _ _) (ih _)

theorem capOf_mem_le : ∀ (l : List (FilePath × List String)) (acc : Nat) (p : FilePath)
    (imps : List String), (p, imps) ∈ l →
      imps.length ≤ l.foldl (fun m pr => max m pr.2.length) acc := by
  intro l
  induction l with
  | nil => intro acc p imps h; simp at h
  | cons q rest ih =>
    intro acc p imps h
    rw [List.foldl_cons]
    rcases List.mem_cons.mp h with h | h
    · have he : imps.length ≤ max acc q.2.length := by
        rw [← h]
        exact Nat.le_max_right _ _
      exact le_trans he (capOf_init_le rest _)
    · exact ih _ p imps h

theorem capOf_bound {fs : FS} {p : FilePath} {imps : List String}
    (h : (p, imps) ∈ fs.assetImports) : imps.length ≤ capOf fs :=
  capOf_mem_le fs.assetImports 0 p imps h

theorem capOf_lookup {fs : FS} {p : FilePath} {imps : List String}
    (h : fs.assetImports.lookup p = some imps) : imps.length ≤ capOf fs :=
  capOf_bound (lookup_mem h)

theorem okAssets_paths_sublist (fs : FS) (ps : List FilePath) :
    List.Sublist ((okAssets (ps.map (Asset.new fs))).map (fun a => a.path)) ps := by
  induction ps with
  | nil => simp [okAssets]
  | cons p ps ih =>
    rw [List.map_cons]
    cases hres : Asset.new fs p with
    | ok a =>
      have hpath : a.path = p := (Asset_new_ok hres).1
      have he : okAssets (Except.ok a :: ps.map (Asset.new fs)) =
          a :: okAssets (ps.map (Asset.new fs)) := by
        simp [okAssets, List.filterMap_cons]
      rw [he, List.map_cons, hpath]
      exact List.Sublist.cons₂ p ih
    | error e =>
      have he : okAssets (Except.error e :: ps.map (Asset.new fs)) =
          okAssets (ps.map (Asset.new fs)) := by
        simp [okAssets, List.filterMap_cons]
      rw [he]
      exact List.Sublist.cons p ih

theorem freshDeps_sublist (st : BuildState) (ps : List FilePath) :
    List.Sublist (freshDeps st ps) ps := List.filter_sublist ps

theorem freshDeps_mem {st : BuildState} {ps : List FilePath} {p : FilePath}
    (h : p ∈ freshDeps st ps) :
    p ∈ ps ∧ st.knownPaths.contains p = false ∧
      st.failures.any (fun f => f.path == p) = false := by
  have hm := List.mem_filter.mp h
  refine ⟨hm.1, ?_, ?_⟩
  · have := (Bool.and_eq_true_iff.mp hm.2).1
    simpa using this
  · have := (Bool.and_eq_true_iff.mp hm.2).2
    simpa using this

/-! ### The inductive invariant of the work-list loop -/

/-- Facts preserved by every iteration of the loop in `DepTree::build`:
id freshness, uniqueness of recorded child ids, the depth bookkeeping
(root at 0, children at parent depth + 1, expanded parents strictly below
the bound), every node discovered from a parent edge, and node paths being
known, existing files with parsable headers. -/
structure Inv (fs : FS) (maxDepth : Nat) (st : BuildState) : Prop where
  zero_lt : 0 < st.nextId
  depths_lt : ∀ pr ∈ st.depths, pr.1 < st.nextId
  conns_keys_nodup : (st.conns.map (fun pr => pr.1)).Nodup
  children_lt : ∀ pr ∈ st.conns, ∀ c ∈ pr.2, c < st.nextId
  children_count : ∀ j : Nat, (flatChildren st.conns).count j ≤ 1
  root_depth : st.depths.lookup 0 = some 0
  conn_depth : ∀ pr ∈ st.conns, ∃ dp, st.depths.lookup pr.1 = some dp ∧ dp < maxDepth ∧
    ∀ c ∈ pr.2, st.depths.lookup c = some (dp + 1)
  node_parent : ∀ pr ∈ st.nodes, pr.1 ≠ 0 → ∃ q ∈ st.conns, pr.1 ∈ q.2
  frontier_depth : ∀ id ∈ st.frontier, ∃ d, st.depths.lookup id = some d
  paths_known : ∀ pr ∈ st.nodes, pr.2.path ∈ st.knownPaths
  nodes_file : ∀ pr ∈ st.nodes, fs.isFile pr.2.path = true
  node_imports : ∀ pr ∈ st.nodes, fs.assetImports.lookup pr.2.path = some pr.2.imports
  nodes_lt : ∀ pr ∈ st.nodes, pr.1 < st.nextId
  nodes_keys_nodup : (st.nodes.map (fun pr => pr.1)).Nodup

theorem addNode_inv {fs : FS} {maxDepth : Nat} {st : BuildState} {cur dc : Nat} {a : Asset}
    (hinv : Inv fs maxDepth st)
    (hdc : st.depths.lookup cur = some dc) (hlt : dc < maxDepth)
    (hfile : fs.isFile a.path = true)
    (himp : fs.assetImports.lookup a.path = some a.imports)
    (hknown : a.path ∈ st.knownPaths) :
    Inv fs maxDepth (addNode cur st a) ∧
      (addNode cur st a).depths.lookup cur = some dc ∧
      (addNode cur st a).knownPaths = st.knownPaths := by
  have hgetd : (st.depths.lookup cur).getD 0 + 1 = dc + 1 := by rw [hdc]; rfl
  have hfreshlk : (st.depths ++ [(st.nextId, (st.depths.lookup cur).getD 0 + 1)]).lookup
      st.nextId = some ((st.depths.lookup cur).getD 0 + 1) :=
    lookup_append_fresh hinv.depths_lt
  have hfresh2 : (st.depths ++ [(st.nextId, (st.depths.lookup cur).getD 0 + 1)]).lookup
      st.nextId = some (dc + 1) := by
    rw [hgetd]
    exact lookup_append_fresh hinv.depths_lt
  refine ⟨⟨?_, ?_, ?_, ?_, ?_, ?_, ?_, ?_, ?_, ?_, ?_, ?_, ?_, ?_⟩, ?_, ?_⟩
  · exact Nat.succ_pos st.nextId
  · intro pr hpr
    rcases List.mem_append.mp hpr with h | h
    · exact Nat.lt_succ_of_lt (hinv.depths_lt pr h)
    · rw [List.mem_singleton] at h
      rw [h]
      exact Nat.lt_succ_self _
  · exact connsPush_keys_nodup hinv.conns_keys_nodup
  · intro pr hpr c hc
    rcases mem_connsPush hpr with h | ⟨cs, hcs, he⟩ | he
    · exact Nat.lt_succ_of_lt (hinv.children_lt pr h c hc)
    · rw [he] at hc
      rcases List.mem_append.mp hc with h | h
      · exact Nat.lt_succ_of_lt (hinv.children_lt _ hcs c h)
      · rw [List.mem_singleton] at h
        rw [h]
        exact Nat.lt_succ_self _
    · rw [he] at hc
      rw [List.mem_singleton] at hc
      rw [hc]
      exact Nat.lt_succ_self _
  · intro j
    have hle := @count_flatChildren_connsPush st.conns cur st.nextId
      hinv.conns_keys_nodup j
    by_cases hj : j = st.nextId
    · have hzero : (flatChildren st.conns).count st.nextId = 0 :=
        count_flatChildren_zero hinv.children_lt
      rw [hj] at hle ⊢
      rw [hzero] at hle
      simpa using hle
    · rw [if_neg hj] at hle
      exact le_trans hle (by simpa using hinv.children_count j)
  · exact lookup_append_some hinv.root_depth
  · intro pr hpr
    rcases mem_connsPush hpr with h | ⟨cs, hcs, he⟩ | he
    · obtain ⟨dp, hdp, hdpm, hch⟩ := hinv.conn_depth pr h
      exact ⟨dp, lookup_append_some hdp, hdpm,
        fun c hc => lookup_append_some (hch c hc)⟩
    · obtain ⟨dp, hdp, hdpm, hch⟩ := hinv.conn_depth _ hcs
      have hdpc : dp = dc := by
        rw [hdp] at hdc
        exact Option.some.inj hdc
      subst he
      rw [hdpc] at hch
      refine ⟨dc, lookup_append_some hdc, hlt, ?_⟩
      intro c hc
      rcases List.mem_append.mp hc with h | h
      · exact lookup_append_some (hch c h)
      · rw [List.mem_singleton] at h
        subst h
        exact hfresh2
    · subst he
      refine ⟨dc, lookup_append_some hdc, hlt, ?_⟩
      intro c hc
      rw [List.mem_singleton] at hc
      subst hc
      exact hfresh2
  · intro pr hpr hne
    rcases List.mem_append.mp hpr with h | h
    · obtain ⟨q, hq, hmem⟩ := hinv.node_parent pr h hne
      obtain ⟨cs', hq', hsub⟩ := connsPush_mem_mono hq
      exact ⟨(q.1, cs'), hq', hsub _ hmem⟩
    · rw [List.mem_singleton] at h
      subst h
      obtain ⟨cs, hmem, hid⟩ := connsPush_mem_new st.conns cur st.nextId
      exact ⟨(cur, cs), hmem, hid⟩
  · intro id hid
    rcases List.mem_cons.mp hid with h | h
    · subst h
      exact ⟨_, hfreshlk⟩
    · obtain ⟨d, hd⟩ := hinv.frontier_depth id h
      exact ⟨d, lookup_append_some hd⟩
  · intro pr hpr
    rcases List.mem_append.mp hpr with h | h
    · exact hinv.paths_known pr h
    · rw [List.mem_singleton] at h
      subst h
      exact hknown
  · intro pr hpr
    rcases List.mem_append.mp hpr with h | h
    · exact hinv.nodes_file pr h
    · rw [List.mem_singleton] at h
      subst h
      exact hfile
  · intro pr hpr
    rcases List.mem_append.mp hpr with h | h
    · exact hinv.node_imports pr h
    · rw [List.mem_singleton] at h
      subst h
      exact himp
  · intro pr hpr
    rcases List.mem_append.mp hpr with h | h
    · exact Nat.lt_succ_of_lt (hinv.nodes_lt pr h)
    · rw [List.mem_singleton] at h
      rw [h]
      exact Nat.lt_succ_self _
  · have he : (st.nodes ++ [(st.nextId, a)]).map (fun pr => pr.1) =
        st.nodes.map (fun pr => pr.1) ++ [st.nextId] := by simp
    show ((st.nodes ++ [(st.nextId, a)]).map (fun pr => pr.1)).Nodup
    rw [he]
    refine List.Nodup.append hinv.nodes_keys_nodup (List.nodup_singleton _) ?_
    intro x hx hx2
    rw [List.mem_singleton] at hx2
    subst hx2
    rcases List.mem_map.mp hx with ⟨pr, hpr, hekey⟩
    have hlt2 := hinv.nodes_lt pr hpr
    rw [hekey] at hlt2
    exact absurd hlt2 (lt_irrefl _)
  · exact lookup_append_some hdc
  · rfl

theorem foldl_addNode_inv {fs : FS} {maxDepth : Nat} (cur dc : Nat) :
    ∀ (batch : List Asset) (st : BuildState),
      Inv fs maxDepth st →
      st.depths.lookup cur = some dc → dc < maxDepth →
      (∀ a ∈ batch, fs.isFile a.path = true ∧
        fs.assetImports.lookup a.path = some a.imports ∧ a.path ∈ st.knownPaths) →
      Inv fs maxDepth (batch.foldl (addNode cur) st) := by
  intro batch
  induction batch with
  | nil =>
    intro st hinv _ _ _
    simpa using hinv
  | cons a batch ih =>
    intro st hinv hdc hlt hbatch
    rw [List.foldl_cons]
    obtain ⟨h1, h2, h3⟩ := hbatch a (List.mem_cons_self _ _)
    obtain ⟨hinv', hdc', hkp⟩ := addNode_inv hinv hdc hlt h1 h2 h3
    apply ih _ hinv' hdc' hlt
    intro b hb
    obtain ⟨g1, g2, g3⟩ := hbatch b (List.mem_cons_of_mem _ hb)
    refine ⟨g1, g2, ?_⟩
    rw [hkp]
    exact g3

theorem stepNode_inv {cfg : AssetDirsCfg} {fs : FS} {maxDepth : Nat} {st : BuildState}
    {cur : Nat} (hinv : Inv fs maxDepth st)
    (hfr : ∃ d, st.depths.lookup cur = some d) :
    Inv fs maxDepth (stepNode cfg fs maxDepth st cur) := by
  obtain ⟨dc, hdc⟩ := hfr
  unfold stepNode
  split
  · exact hinv
  · rename_i hguard
    have hlt : dc < maxDepth := by
      rw [hdc] at hguard
      simpa using Nat.lt_of_not_le (fun hle => hguard hle)
    have hmid : Inv fs maxDepth (stepMid cfg fs st cur) :=
      ⟨hinv.zero_lt, hinv.depths_lt, hinv.conns_keys_nodup, hinv.children_lt,
        hinv.children_count, hinv.root_depth, hinv.conn_depth, hinv.node_parent,
        hinv.frontier_depth,
        fun pr hpr => foldl_insert_mem_of (hinv.paths_known pr hpr),
        hinv.nodes_file, hinv.node_imports, hinv.nodes_lt, hinv.nodes_keys_nodup⟩
    have hbatch : ∀ a ∈ okAssets (stepResults cfg fs st cur),
        fs.isFile a.path = true ∧ fs.assetImports.lookup a.path = some a.imports ∧
          a.path ∈ (stepMid cfg fs st cur).knownPaths := by
      intro a ha
      obtain ⟨p, hp, hnew⟩ := okAssets_of_map ha
      obtain ⟨hpath, hfile, hext, hlk, horigin⟩ := Asset_new_ok hnew
      subst hpath
      exact ⟨hfile, hlk, foldl_insert_mem_el (List.mem_map_of_mem _ ha)⟩
    exact foldl_addNode_inv cur dc _ _ hmid hdc hlt hbatch

theorem Inv_pop {fs : FS} {maxDepth : Nat} {st : BuildState} {cur : Nat} {rest : List Nat}
    (hinv : Inv fs maxDepth st) (hfr : st.frontier = cur :: rest) :
    Inv fs maxDepth { st with frontier := rest } := by
  refine ⟨hinv.zero_lt, hinv.depths_lt, hinv.conns_keys_nodup, hinv.children_lt,
    hinv.children_count, hinv.root_depth, hinv.conn_depth, hinv.node_parent, ?_,
    hinv.paths_known, hinv.nodes_file, hinv.node_imports, hinv.nodes_lt,
    hinv.nodes_keys_nodup⟩
  intro id hid
  exact hinv.frontier_depth id (by rw [hfr]; exact List.mem_cons_of_mem _ hid)

theorem buildLoop_inv {cfg : AssetDirsCfg} {fs : FS} {maxDepth : Nat} :
    ∀ (fuel : Nat) (st : BuildState), Inv fs maxDepth st →
      Inv fs maxDepth (buildLoop cfg fs maxDepth fuel st) := by
  intro fuel
  induction fuel with
  | zero => intro st hinv; exact hinv
  | succ fuel ih =>
    intro st hinv
    rw [buildLoop]
    cases hfr : st.frontier with
    | nil => exact hinv
    | cons cur rest =>
      apply ih
      apply stepNode_inv (Inv_pop hinv hfr)
      exact hinv.frontier_depth cur (by rw [hfr]; exact List.mem_cons_self _ _)

theorem initState_inv {fs : FS} {rootPath : FilePath} {root : Asset} {maxDepth : Nat}
    (h : Asset.new fs rootPath = Except.ok root) :
    Inv fs maxDepth (initState root maxDepth) := by
  obtain ⟨hpath, hfile, hext, hlk, horig⟩ := Asset_new_ok h
  subst hpath
  refine ⟨Nat.one_pos, ?_, ?_, ?_, ?_, ?_, ?_, ?_, ?_, ?_, ?_, ?_, ?_, ?_⟩
  · intro pr hpr
    simp only [initState, List.mem_singleton] at hpr
    subst hpr
    exact Nat.one_pos
  · simp [initState]
  · intro pr hpr
    simp [initState] at hpr
  · intro j
    simp [initState, flatChildren]
  · exact lookup_singleton 0 0
  · intro pr hpr
    simp [initState] at hpr
  · intro pr hpr hne
    simp only [initState, List.mem_singleton] at hpr
    subst hpr
    exact absurd rfl hne
  · intro id hid
    simp only [initState] at hid
    split at hid
    · rw [List.mem_singleton] at hid
      rw [hid]
      exact ⟨0, lookup_singleton 0 0⟩
    · simp at hid
  · intro pr hpr
    simp only [initState, List.mem_singleton] at hpr
    rw [hpr]
    simp [initState]
  · intro pr hpr
    simp only [initState, List.mem_singleton] at hpr
    rw [hpr]
    exact hfile
  · intro pr hpr
    simp only [initState, List.mem_singleton] at hpr
    rw [hpr]
    exact hlk
  · intro pr hpr
    simp only [initState, List.mem_singleton] at hpr
    subst hpr
    exact Nat.one_pos
  · simp [initState]

/-! ### Termination of the work-list loop -/

/-- Number of distinct files not yet in the known-path set. -/
def newCount (fs : FS) (known : List FilePath) : Nat :=
  (fs.files.dedup.filter (fun p => !known.contains p)).length

/-- The loop measure: popping one frontier entry strictly decreases it,
because every created node pushes one frontier entry but also moves at
least one file out of the not-yet-known count, weighted above the maximal
batch size. -/
def measureOf (fs : FS) (st : BuildState) : Nat :=
  st.frontier.length + (capOf fs + 2) * newCount fs st.knownPaths

theorem filter_length_le_of_imp {α : Type} (l : List α) (p q : α → Bool)
    (h : ∀ x ∈ l, p x = true → q x = true) :
    (l.filter p).length ≤ (l.filter q).length := by
  induction l with
  | nil => simp
  | cons a l ih =>
    have ih' := ih (fun x hx => h x (List.mem_cons_of_mem _ hx))
    rw [List.filter_cons, List.filter_cons]
    by_cases hp : p a = true
    · rw [if_pos hp, if_pos (h a (List.mem_cons_self _ _) hp)]
      simpa using ih'
    · rw [if_neg hp]
      by_cases hq : q a = true
      · rw [if_pos hq]
        exact le_trans ih' (by simp)
      · rw [if_neg hq]
        exact ih'

theorem filter_length_lt {α : Type} (l : List α) (p q : α → Bool)
    (h : ∀ x ∈ l, p x = true → q x = true)
    (x0 : α) (hx0 : x0 ∈ l) (hq0 : q x0 = true) (hp0 : p x0 = false) :
    (l.filter p).length < (l.filter q).length := by
  induction l with
  | nil => simp at hx0
  | cons a l ih =>
    rw [List.filter_cons, List.filter_cons]
    rcases List.mem_cons.mp hx0 with he | hmem
    · subst he
      rw [if_neg (by simp [hp0]), if_pos hq0]
      exact Nat.lt_succ_of_le
        (filter_length_le_of_imp l p q (fun x hx => h x (List.mem_cons_of_mem _ hx)))
    · have ih' := ih (fun y hy => h y (List.mem_cons_of_mem _ hy)) hmem
      by_cases hpa : p a = true
      · rw [if_pos hpa, if_pos (h a (List.mem_cons_self _ _) hpa)]
        simpa using ih'
      · rw [if_neg hpa]
        by_cases hqa : q a = true
        · rw [if_pos hqa]
          exact Nat.lt_succ_of_lt ih'
        · rw [if_neg hqa]
          exact ih'

theorem not_bang_true {b : Bool} (h : (!b) = true) : b = false := by
  cases b
  · rfl
  · simp at h

theorem contains_false_of {ks ks' : List FilePath} (hsub : ∀ x ∈ ks, x ∈ ks') {x : FilePath}
    (h : ks'.contains x = false) : ks.contains x = false := by
  cases hc : ks.contains x with
  | false => rfl
  | true =>
    have hmem : x ∈ ks' := hsub x ((contains_true_iff _ _).mp hc)
    rw [(contains_true_iff _ _).mpr hmem] at h
    exact absurd h (by simp)

theorem foldl_addNode_shape (cur : Nat) : ∀ (batch : List Asset) (st : BuildState),
    (batch.foldl (addNode cur) st).frontier.length = st.frontier.length + batch.length ∧
      (batch.foldl (addNode cur) st).knownPaths = st.knownPaths := by
  intro batch
  induction batch with
  | nil => intro st; simp
  | cons a batch ih =>
    intro st
    rw [List.foldl_cons]
    obtain ⟨h1, h2⟩ := ih (addNode cur st a)
    refine ⟨?_, h2⟩
    rw [h1]
    simp [addNode]
    omega

theorem stepNode_measure {cfg : AssetDirsCfg} {fs : FS} {maxDepth : Nat} {st : BuildState}
    {cur : Nat} (hinv : Inv fs maxDepth st) :
    measureOf fs (stepNode cfg fs maxDepth st cur) ≤ measureOf fs st := by
  unfold stepNode
  split
  · exact le_refl _
  · obtain ⟨hfrl, hkpl⟩ :=
      foldl_addNode_shape cur (okAssets (stepResults cfg fs st cur)) (stepMid cfg fs st cur)
    unfold measureOf
    rw [hfrl, hkpl]
    have hmidfr : (stepMid cfg fs st cur).frontier = st.frontier := rfl
    rw [hmidfr]
    have hbl : (okAssets (stepResults cfg fs st cur)).length ≤ capOf fs := by
      have h1 : (okAssets (stepResults cfg fs st cur)).length ≤
          (stepResults cfg fs st cur).length := List.length_filterMap_le _ _
      have h2 : (stepResults cfg fs st cur).length =
          (freshDeps st (stepDeps cfg fs st cur).1).length := List.length_map _ _
      have h3 : (freshDeps st (stepDeps cfg fs st cur).1).length ≤
          (stepDeps cfg fs st cur).1.length :=
        List.Sublist.length_le (freshDeps_sublist st _)
      have h4 : (stepDeps cfg fs st cur).1.length ≤
          ((st.nodes.lookup cur).getD defaultAsset).imports.length := getDeps_len cfg fs _
      have h5 : ((st.nodes.lookup cur).getD defaultAsset).imports.length ≤ capOf fs := by
        cases hlk : st.nodes.lookup cur with
        | none => simp [defaultAsset]
        | some a =>
          have hmem := lookup_mem hlk
          have himp := hinv.node_imports (cur, a) hmem
          simpa using capOf_lookup himp
      omega
    have hsub : ∀ x ∈ st.knownPaths, x ∈ (stepMid cfg fs st cur).knownPaths :=
      fun x hx => foldl_insert_mem_of hx
    have himp : ∀ p ∈ fs.files.dedup,
        (!(stepMid cfg fs st cur).knownPaths.contains p) = true →
          (!st.knownPaths.contains p) = true := by
      intro p _ hp
      have h2 := contains_false_of hsub (not_bang_true hp)
      rw [h2]
      rfl
    cases hb0 : okAssets (stepResults cfg fs st cur) with
    | nil =>
      have hkeq : (stepMid cfg fs st cur).knownPaths = st.knownPaths := by
        show ((okAssets (stepResults cfg fs st cur)).map (fun a => a.path)).foldl
          insertKnown st.knownPaths = st.knownPaths
        rw [hb0]
        rfl
      rw [hkeq]
      simp
    | cons a rest =>
      have hamem : a ∈ okAssets (stepResults cfg fs st cur) := by
        rw [hb0]
        exact List.mem_cons_self _ _
      obtain ⟨p, hp, hnew⟩ := okAssets_of_map hamem
      obtain ⟨hpath, hfile, _, _, _⟩ := Asset_new_ok hnew
      obtain ⟨hpmem, hkc, _⟩ := freshDeps_mem hp
      have hpfiles : p ∈ fs.files.dedup :=
        List.mem_dedup.mpr ((contains_true_iff _ _).mp hfile)
      have hpK' : p ∈ (stepMid cfg fs st cur).knownPaths := by
        have : a.path ∈ ((okAssets (stepResults cfg fs st cur)).map (fun a => a.path)) :=
          List.mem_map_of_mem _ hamem
        rw [hpath] at this
        exact foldl_insert_mem_el this
      have hstrict : newCount fs (stepMid cfg fs st cur).knownPaths <
          newCount fs st.knownPaths := by
        apply filter_length_lt _ _ _ himp p hpfiles
        · rw [hkc]
          rfl
        · rw [(contains_true_iff _ _).mpr hpK']
          rfl
      have hmul : (capOf fs + 2) * (newCount fs (stepMid cfg fs st cur).knownPaths + 1) ≤
          (capOf fs + 2) * newCount fs st.knownPaths :=
        Nat.mul_le_mul_left _ hstrict
      rw [Nat.mul_add, Nat.mul_one] at hmul
      have hel : (a :: rest).length = (okAssets (stepResults cfg fs st cur)).length := by
        rw [hb0]
      have hfr2 : (stepMid cfg fs st cur).frontier.length = st.frontier.length := rfl
      omega

theorem buildLoop_done {cfg : AssetDirsCfg} {fs : FS} {maxDepth : Nat} :
    ∀ (fuel : Nat) (st : BuildState), Inv fs maxDepth st → measureOf fs st ≤ fuel →
      (buildLoop cfg fs maxDepth fuel st).frontier = [] := by
  intro fuel
  induction fuel with
  | zero =>
    intro st hinv hm
    unfold measureOf at hm
    have hl : st.frontier.length = 0 := by omega
    exact List.length_eq_zero.mp hl
  | succ fuel ih =>
    intro st hinv hm
    rw [buildLoop]
    cases hfr : st.frontier with
    | nil => exact hfr
    | cons cur rest =>
      have hpop : Inv fs maxDepth { st with frontier := rest } := Inv_pop hinv hfr
      have hd := hinv.frontier_depth cur (by rw [hfr]; exact List.mem_cons_self _ _)
      have hmeas := @stepNode_measure cfg fs maxDepth { st with frontier := rest } cur hpop
      have hmp : measureOf fs { st with frontier := rest } + 1 = measureOf fs st := by
        unfold measureOf
        rw [hfr]
        simp
        omega
      apply ih _ (stepNode_inv hpop hd)
      omega

/-- With `fuelBound fs` fuel the loop always drains the frontier: the
initial measure is below the bound and every iteration decreases it. -/
theorem finalState_frontier_nil {cfg : AssetDirsCfg} {fs : FS} {maxDepth : Nat}
    {rootPath : FilePath} {root : Asset} (h : Asset.new fs rootPath = Except.ok root) :
    (finalState cfg fs maxDepth root).frontier = [] := by
  apply buildLoop_done _ _ (initState_inv h)
  unfold measureOf fuelBound
  have h1 : newCount fs (initState root maxDepth).knownPaths ≤ fs.files.dedup.length :=
    List.length_filter_le _ _
  have h2 : (initState root maxDepth).frontier.length ≤ 1 := by
    show (if maxDepth > 0 then [(0 : Nat)] else []).length ≤ 1
    split <;> simp
  have h3 : (capOf fs + 2) * newCount fs (initState root maxDepth).knownPaths ≤
      (capOf fs + 2) * fs.files.dedup.length :=
    Nat.mul_le_mul_left _ h1
  rw [Nat.mul_add]
  omega

/-! ### The node table only grows -/

theorem foldl_addNode_nodes_mem (cur : Nat) : ∀ (batch : List Asset) (st : BuildState)
    {x : Nat × Asset}, x ∈ st.nodes → x ∈ (batch.foldl (addNode cur) st).nodes := by
  intro batch
  induction batch with
  | nil => intro st x h; simpa using h
  | cons a batch ih =>
    intro st x h
    rw [List.foldl_cons]
    exact ih _ (List.mem_append_left _ h)

theorem stepNode_nodes_mem {cfg : AssetDirsCfg} {fs : FS} {maxDepth : Nat}
    {st : BuildState} {cur : Nat} {x : Nat × Asset} (h : x ∈ st.nodes) :
    x ∈ (stepNode cfg fs maxDepth st cur).nodes := by
  unfold stepNode
  split
  · exact h
  · exact foldl_addNode_nodes_mem cur _ _ h

theorem buildLoop_nodes_mem {cfg : AssetDirsCfg} {fs : FS} {maxDepth : Nat} :
    ∀ (fuel : Nat) (st : BuildState) {x : Nat × Asset}, x ∈ st.nodes →
      x ∈ (buildLoop cfg fs maxDepth fuel st).nodes := by
  intro fuel
  induction fuel with
  | zero => intro st x h; exact h
  | succ fuel ih =>
    intro st x h
    rw [buildLoop]
    cases hfr : st.frontier with
    | nil => exact h
    | cons cur rest => exact ih _ (stepNode_nodes_mem h)

/-! ### Evolution of the node-path multiset through one step -/

theorem foldl_addNode_paths (cur : Nat) : ∀ (batch : List Asset) (st : BuildState),
    (batch.foldl (addNode cur) st).nodes.map (fun pr => pr.2.path) =
      st.nodes.map (fun pr => pr.2.path) ++ batch.map (fun a => a.path) := by
  intro batch
  induction batch with
  | nil => intro st; simp
  | cons a batch ih =>
    intro st
    rw [List.foldl_cons, ih]
    show (st.nodes ++ [(st.nextId, a)]).map (fun pr => pr.2.path) ++
        batch.map (fun a => a.path) = _
    rw [List.map_append, List.map_cons, List.append_assoc]
    rfl

/-- Duplicate-freedom of each parsable asset's resolved dependency-path
list, the hypothesis under which node paths stay unique. -/
def ResolveNodup (cfg : AssetDirsCfg) (fs : FS) : Prop :=
  ∀ pr ∈ fs.assetImports, ((getDeps cfg fs pr.2).1).Nodup

/-- Bound on the multiplicity of one fixed path in each parsable asset's
resolved dependency-path list. -/
def ResolveCount (cfg : AssetDirsCfg) (fs : FS) (p : FilePath) : Prop :=
  ∀ pr ∈ fs.assetImports, ((getDeps cfg fs pr.2).1).count p ≤ 1

theorem stepDeps_nodup {cfg : AssetDirsCfg} {fs : FS} {maxDepth : Nat} {st : BuildState}
    {cur : Nat} (hres : ResolveNodup cfg fs) (hinv : Inv fs maxDepth st) :
    ((stepDeps cfg fs st cur).1).Nodup := by
  unfold stepDeps
  cases hlk : st.nodes.lookup cur with
  | none => exact List.nodup_nil
  | some a =>
    have himp := hinv.node_imports (cur, a) (lookup_mem hlk)
    exact hres _ (lookup_mem himp)

theorem stepDeps_count {cfg : AssetDirsCfg} {fs : FS} {maxDepth : Nat} {st : BuildState}
    {cur : Nat} {p : FilePath} (hres : ResolveCount cfg fs p) (hinv : Inv fs maxDepth st) :
    ((stepDeps cfg fs st cur).1).count p ≤ 1 := by
  unfold stepDeps
  cases hlk : st.nodes.lookup cur with
  | none =>
    show List.count p (getDeps cfg fs []).1 ≤ 1
    simp [getDeps]
  | some a =>
    have himp := hinv.node_imports (cur, a) (lookup_mem hlk)
    exact hres _ (lookup_mem himp)

theorem stepBatch_paths_sublist (cfg : AssetDirsCfg) (fs : FS) (st : BuildState) (cur : Nat) :
    List.Sublist ((okAssets (stepResults cfg fs st cur)).map (fun a => a.path))
      ((stepDeps cfg fs st cur).1) :=
  List.Sublist.trans (okAssets_paths_sublist fs _) (freshDeps_sublist st _)

theorem stepBatch_not_known {cfg : AssetDirsCfg} {fs : FS} {st : BuildState} {cur : Nat}
    {x : FilePath} (hx : x ∈ (okAssets (stepResults cfg fs st cur)).map (fun a => a.path)) :
    st.knownPaths.contains x = false := by
  rcases List.mem_map.mp hx with ⟨a, ha, hpa⟩
  obtain ⟨q, hq, hnew⟩ := okAssets_of_map ha
  have hq_path : a.path = q := (Asset_new_ok hnew).1
  obtain ⟨_, hkc, _⟩ := freshDeps_mem hq
  rw [← hpa, hq_path]
  exact hkc

theorem stepNode_paths_nodup {cfg : AssetDirsCfg} {fs : FS} {maxDepth : Nat}
    {st : BuildState} {cur : Nat} (hres : ResolveNodup cfg fs) (hinv : Inv fs maxDepth st)
    (hnd : (st.nodes.map (fun pr => pr.2.path)).Nodup) :
    ((stepNode cfg fs maxDepth st cur).nodes.map (fun pr => pr.2.path)).Nodup := by
  unfold stepNode
  split
  · exact hnd
  · rw [foldl_addNode_paths]
    have hmid : (stepMid cfg fs st cur).nodes = st.nodes := rfl
    rw [hmid]
    have hbatch_nodup : ((okAssets (stepResults cfg fs st cur)).map (fun a => a.path)).Nodup :=
      (stepDeps_nodup hres hinv).sublist (stepBatch_paths_sublist cfg fs st cur)
    refine List.Nodup.append hnd hbatch_nodup ?_
    intro x hx1 hx2
    rcases List.mem_map.mp hx1 with ⟨pr, hpr, hpx⟩
    have hknown : x ∈ st.knownPaths := by
      rw [← hpx]
      exact hinv.paths_known pr hpr
    have hfc := stepBatch_not_known hx2
    rw [(contains_true_iff _ _).mpr hknown] at hfc
    exact absurd hfc (by simp)

theorem buildLoop_paths_nodup {cfg : AssetDirsCfg} {fs : FS} {maxDepth : Nat}
    (hres : ResolveNodup cfg fs) :
    ∀ (fuel : Nat) (st : BuildState), Inv fs maxDepth st →
      (st.nodes.map (fun pr => pr.2.path)).Nodup →
      ((buildLoop cfg fs maxDepth fuel st).nodes.map (fun pr => pr.2.path)).Nodup := by
  intro fuel
  induction fuel with
  | zero => intro st _ hnd; exact hnd
  | succ fuel ih =>
    intro st hinv hnd
    rw [buildLoop]
    cases hfr : st.frontier with
    | nil => exact hnd
    | cons cur rest =>
      have hpop := Inv_pop hinv hfr
      have hd := hinv.frontier_depth cur (by rw [hfr]; exact List.mem_cons_self _ _)
      exact ih _ (stepNode_inv hpop hd) (stepNode_paths_nodup hres hpop hnd)

theorem stepNode_path_count {cfg : AssetDirsCfg} {fs : FS} {maxDepth : Nat}
    {st : BuildState} {cur : Nat} {p : FilePath} (hres : ResolveCount cfg fs p)
    (hinv : Inv fs maxDepth st)
    (hcnt : (st.nodes.map (fun pr => pr.2.path)).count p ≤ 1) :
    ((stepNode cfg fs maxDepth st cur).nodes.map (fun pr => pr.2.path)).count p ≤ 1 := by
  unfold stepNode
  split
  · exact hcnt
  · rw [foldl_addNode_paths]
    have hmid : (stepMid cfg fs st cur).nodes = st.nodes := rfl
    rw [hmid, List.count_append]
    have hbatch_le : ((okAssets (stepResults cfg fs st cur)).map (fun a => a.path)).count p ≤
        ((stepDeps cfg fs st cur).1).count p :=
      (stepBatch_paths_sublist cfg fs st cur).count_le p
    have hdep_cnt := @stepDeps_count cfg fs maxDepth st cur p hres hinv
    by_cases hmem : p ∈ st.nodes.map (fun pr => pr.2.path)
    · have hknown : p ∈ st.knownPaths := by
        rcases List.mem_map.mp hmem with ⟨pr, hpr, hpx⟩
        rw [← hpx]
        exact hinv.paths_known pr hpr
      have hbz : ((okAssets (stepResults cfg fs st cur)).map (fun a => a.path)).count p = 0 := by
        rw [List.count_eq_zero]
        intro hx
        have hfc := stepBatch_not_known hx
        rw [(contains_true_iff _ _).mpr hknown] at hfc
        exact absurd hfc (by simp)
      omega
    · have hcz : (st.nodes.map (fun pr => pr.2.path)).count p = 0 :=
        List.count_eq_zero.mpr hmem
      omega

theorem buildLoop_path_count {cfg : AssetDirsCfg} {fs : FS} {maxDepth : Nat} {p : FilePath}
    (hres : ResolveCount cfg fs p) :
    ∀ (fuel : Nat) (st : BuildState), Inv fs maxDepth st →
      (st.nodes.map (fun pr => pr.2.path)).count p ≤ 1 →
      ((buildLoop cfg fs maxDepth fuel st).nodes.map (fun pr => pr.2.path)).count p ≤ 1 := by
  intro fuel
  induction fuel with
  | zero => intro st _ hc; exact hc
  | succ fuel ih =>
    intro st hinv hc
    rw [buildLoop]
    cases hfr : st.frontier with
    | nil => exact hc
    | cons cur rest =>
      have hpop := Inv_pop hinv hfr
      have hd := hinv.frontier_depth cur (by rw [hfr]; exact List.mem_cons_self _ _)
      exact ih _ (stepNode_inv hpop hd) (stepNode_path_count hres hpop hc)

/-! ### Unpacking a successful build -/

theorem build_ok_elim {fs : FS} {rootPath : FilePath} {cfg : AssetDirsCfg} {maxDepth : Nat}
    {t : DepTree} (h : DepTree.build fs rootPath cfg maxDepth = Except.ok t) :
    ∃ root, Asset.new fs rootPath = Except.ok root ∧
      t.rootNodeId = 0 ∧
      t.nodes = (finalState cfg fs maxDepth root).nodes ∧
      t.nodeConnections = (finalState cfg fs maxDepth root).conns ∧
      t.failures = (finalState cfg fs maxDepth root).failures ∧
      t.maxRecurseDepth = maxDepth ∧
      t.recurseDepths = (finalState cfg fs maxDepth root).depths := by
  unfold DepTree.build at h
  cases hA : Asset.new fs rootPath with
  | error e =>
    rw [hA] at h
    exact absurd h (by simp)
  | ok root =>
    rw [hA] at h
    simp only [Except.ok.injEq] at h
    exact ⟨root, rfl, by rw [← h], by rw [← h], by rw [← h], by rw [← h], by rw [← h],
      by rw [← h]⟩

theorem build_error_iff {fs : FS} {rootPath : FilePath} {cfg : AssetDirsCfg}
    {maxDepth : Nat} {e : AssetError} :
    DepTree.build fs rootPath cfg maxDepth = Except.error e ↔
      Asset.new fs rootPath = Except.error e := by
  unfold DepTree.build
  cases hA : Asset.new fs rootPath with
  | error e2 => simp
  | ok root => simp

/-! ### Collection of failures and coverage of resolved paths -/

theorem lookup_of_mem_nodup {α β : Type} [BEq α] [LawfulBEq α] {l : List (α × β)} {k : α}
    {v : β} (hnd : (l.map (fun pr => pr.1)).Nodup) (h : (k, v) ∈ l) :
    l.lookup k = some v := by
  induction l with
  | nil => simp at h
  | cons pr rest ih =>
    obtain ⟨k', v'⟩ := pr
    rcases List.mem_cons.mp h with he | hmem
    · simp only [Prod.mk.injEq] at he
      obtain ⟨hk, hv⟩ := he
      subst hk
      subst hv
      simp [List.lookup]
    · have hnd2 : (k' :: rest.map (fun pr => pr.1)).Nodup := hnd
      have hnd' := List.nodup_cons.mp hnd2
      have hkne : k ≠ k' := by
        intro he2
        subst he2
        exact hnd'.1 (List.mem_map_of_mem (fun pr => pr.1) hmem)
      have hb : (k == k') = false := beq_eq_false_iff_ne.mpr hkne
      simp only [List.lookup, hb]
      exact ih hnd'.2 hmem

theorem insertFailure_mono {fails : List AssetError} {e f : AssetError} (h : f ∈ fails) :
    f ∈ insertFailure fails e := by
  unfold insertFailure
  split
  · exact h
  · exact List.mem_append_left _ h

theorem extendFailures_mono {newFails : List AssetError} :
    ∀ {fails : List AssetError} {f : AssetError}, f ∈ fails →
      f ∈ extendFailures fails newFails := by
  induction newFails with
  | nil => intro fails f h; exact h
  | cons e rest ih =>
    intro fails f h
    unfold extendFailures
    rw [List.foldl_cons]
    exact ih (insertFailure_mono h)

theorem insertFailure_represents (fails : List AssetError) (e : AssetError) :
    ∃ f ∈ insertFailure fails e, f.path = e.path ∧ f.reason = e.reason := by
  unfold insertFailure
  split
  · rename_i hany
    rcases List.any_eq_true.mp hany with ⟨f, hf, hm⟩
    obtain ⟨h1, h2⟩ := Bool.and_eq_true_iff.mp hm
    exact ⟨f, hf, beq_iff_eq.mp h1, beq_iff_eq.mp h2⟩
  · exact ⟨e, List.mem_append_right _ (by simp), rfl, rfl⟩

theorem extendFailures_represents (newFails : List AssetError) :
    ∀ (fails : List AssetError) (e : AssetError), e ∈ newFails →
      ∃ f ∈ extendFailures fails newFails, f.path = e.path ∧ f.reason = e.reason := by
  induction newFails with
  | nil => intro fails e h; simp at h
  | cons x rest ih =>
    intro fails e h
    unfold extendFailures
    rw [List.foldl_cons]
    rcases List.mem_cons.mp h with he | hmem
    · subst he
      obtain ⟨f, hf, h1, h2⟩ := insertFailure_represents fails e
      exact ⟨f, extendFailures_mono hf, h1, h2⟩
    · exact ih (insertFailure fails x) e hmem

theorem Asset_new_error_path {fs : FS} {p : FilePath} {e : AssetError}
    (h : Asset.new fs p = Except.error e) : e.path = p := by
  unfold Asset.new at h
  split at h
  · simp only [Except.error.injEq] at h
    rw [← h]
  · cases hread : readAsset fs p with
    | error e2 =>
      rw [hread] at h
      simp only [Except.error.injEq] at h
      subst h
      unfold readAsset at hread
      split at hread
      · cases hlk : fs.assetImports.lookup p with
        | some imps =>
          rw [hlk] at hread
          exact absurd hread (by simp)
        | none =>
          rw [hlk] at hread
          simp only [Except.error.injEq] at hread
          rw [← hread]
      · simp only [Except.error.injEq] at hread
        rw [← hread]
    | ok imps =>
      rw [hread] at h
      exact absurd h (by simp)

theorem okAssets_mem_intro {fs : FS} {ps : List FilePath} {p : FilePath} {a : Asset}
    (hp : p ∈ ps) (h : Asset.new fs p = Except.ok a) :
    a ∈ okAssets (ps.map (Asset.new fs)) := by
  unfold okAssets
  apply List.mem_filterMap.mpr
  refine ⟨Except.ok a, ?_, rfl⟩
  rw [← h]
  exact List.mem_map_of_mem _ hp

theorem errAssets_mem_intro {fs : FS} {ps : List FilePath} {p : FilePath} {e : AssetError}
    (hp : p ∈ ps) (h : Asset.new fs p = Except.error e) :
    e ∈ errAssets (ps.map (Asset.new fs)) := by
  unfold errAssets
  apply List.mem_filterMap.mpr
  refine ⟨Except.error e, ?_, rfl⟩
  rw [← h]
  exact List.mem_map_of_mem _ hp

theorem foldl_addNode_failures (cur : Nat) : ∀ (batch : List Asset) (st : BuildState),
    (batch.foldl (addNode cur) st).failures = st.failures := by
  intro batch
  induction batch with
  | nil => intro st; rfl
  | cons a batch ih =>
    intro st
    rw [List.foldl_cons]
    exact ih (addNode cur st a)

theorem foldl_addNode_frontier_mem (cur : Nat) : ∀ (batch : List Asset) (st : BuildState)
    {x : Nat}, x ∈ st.frontier → x ∈ (batch.foldl (addNode cur) st).frontier := by
  intro batch
  induction batch with
  | nil => intro st x h; exact h
  | cons a batch ih =>
    intro st x h
    rw [List.foldl_cons]
    exact ih _ (List.mem_cons_of_mem _ h)

theorem foldl_addNode_depth_some (cur : Nat) : ∀ (batch : List Asset) (st : BuildState)
    {k dp : Nat}, st.depths.lookup k = some dp →
      (batch.foldl (addNode cur) st).depths.lookup k = some dp := by
  intro batch
  induction batch with
  | nil => intro st k dp h; exact h
  | cons a batch ih =>
    intro st k dp h
    rw [List.foldl_cons]
    exact ih _ (lookup_append_some h)

theorem foldl_addNode_nodes_split (cur : Nat) : ∀ (batch : List Asset) (st : BuildState)
    {pr : Nat × Asset}, pr ∈ (batch.foldl (addNode cur) st).nodes →
      pr ∈ st.nodes ∨ pr.1 ∈ (batch.foldl (addNode cur) st).frontier := by
  intro batch
  induction batch with
  | nil => intro st pr h; exact Or.inl h
  | cons a batch ih =>
    intro st pr h
    rw [List.foldl_cons] at h ⊢
    rcases ih _ h with h2 | h2
    · rcases List.mem_append.mp h2 with h3 | h3
      · exact Or.inl h3
      · rw [List.mem_singleton] at h3
        subst h3
        right
        exact foldl_addNode_frontier_mem cur batch _ (List.mem_cons_self _ _)
    · exact Or.inr h2

theorem foldl_addNode_batch_mem (cur : Nat) : ∀ (batch : List Asset) (st : BuildState)
    {a : Asset}, a ∈ batch → ∃ id, (id, a) ∈ (batch.foldl (addNode cur) st).nodes := by
  intro batch
  induction batch with
  | nil => intro st a h; simp at h
  | cons b batch ih =>
    intro st a h
    rw [List.foldl_cons]
    rcases List.mem_cons.mp h with he | hmem
    · subst he
      refine ⟨st.nextId, ?_⟩
      apply foldl_addNode_nodes_mem
      exact List.mem_append_right _ (by simp)
    · exact ih _ hmem

/-- Every known path is covered by a node of the table. -/
def KnownCovered (st : BuildState) : Prop :=
  ∀ p ∈ st.knownPaths, ∃ pr ∈ st.nodes, pr.2.path = p

theorem stepNode_known_covered {cfg : AssetDirsCfg} {fs : FS} {maxDepth : Nat}
    {st : BuildState} {cur : Nat} (h : KnownCovered st) :
    KnownCovered (stepNode cfg fs maxDepth st cur) := by
  unfold stepNode
  split
  · exact h
  · intro p hp
    rw [(foldl_addNode_shape cur _ _).2] at hp
    rcases mem_of_foldl_insert hp with hold | hbatch
    · obtain ⟨pr, hpr, he⟩ := h p hold
      exact ⟨pr, foldl_addNode_nodes_mem cur _ _ hpr, he⟩
    · rcases List.mem_map.mp hbatch with ⟨a, ha, hpa⟩
      obtain ⟨id, hid⟩ := foldl_addNode_batch_mem cur _ _ ha
      exact ⟨(id, a), hid, hpa⟩

theorem buildLoop_known_covered {cfg : AssetDirsCfg} {fs : FS} {maxDepth : Nat} :
    ∀ (fuel : Nat) (st : BuildState), KnownCovered st →
      KnownCovered (buildLoop cfg fs maxDepth fuel st) := by
  intro fuel
  induction fuel with
  | zero => intro st h; exact h
  | succ fuel ih =>
    intro st h
    rw [buildLoop]
    cases hfr : st.frontier with
    | nil => exact h
    | cons cur rest => exact ih _ (stepNode_known_covered h)

/-- Every node whose recorded depth admits expansion is either still
pending on the frontier or fully processed: its resolution failures are
represented in the failure set by path and reason, and each of its
resolved dependency paths is either already known or named by a failure. -/
def Processed (cfg : AssetDirsCfg) (fs : FS) (maxDepth : Nat) (st : BuildState) : Prop :=
  ∀ pr ∈ st.nodes,
    (∀ dp, st.depths.lookup pr.1 = some dp → dp < maxDepth) →
    pr.1 ∈ st.frontier ∨
      ((∀ e ∈ (getDeps cfg fs pr.2.imports).2,
          ∃ f ∈ st.failures, f.path = e.path ∧ f.reason = e.reason) ∧
        (∀ p ∈ (getDeps cfg fs pr.2.imports).1,
          p ∈ st.knownPaths ∨ ∃ f ∈ st.failures, f.path = p))

theorem stepNode_processed {cfg : AssetDirsCfg} {fs : FS} {maxDepth : Nat}
    {st : BuildState} {cur : Nat} {rest : List Nat}
    (hinv : Inv fs maxDepth st) (hfr : st.frontier = cur :: rest)
    (hJ : Processed cfg fs maxDepth st) :
    Processed cfg fs maxDepth
      (stepNode cfg fs maxDepth { st with frontier := rest } cur) := by
  obtain ⟨dc, hdc⟩ := hinv.frontier_depth cur (by rw [hfr]; exact List.mem_cons_self _ _)
  unfold stepNode
  split
  · rename_i hguard
    intro pr hpr hdp
    have hpr2 : pr ∈ st.nodes := hpr
    have hdp2 : ∀ dp, st.depths.lookup pr.1 = some dp → dp < maxDepth := hdp
    by_cases hc : pr.1 = cur
    · exfalso
      have hguard2 : (st.depths.lookup cur).getD 0 ≥ maxDepth := hguard
      rw [hdc] at hguard2
      have hlt2 := hdp2 dc (by rw [hc]; exact hdc)
      simp at hguard2
      omega
    · rcases hJ pr hpr2 hdp2 with hfront | hdone
      · left
        rw [hfr] at hfront
        rcases List.mem_cons.mp hfront with he | hm
        · exact absurd he hc
        · exact hm
      · right
        exact hdone
  · intro pr hpr hdp
    rcases foldl_addNode_nodes_split cur _ _ hpr with hold | hfrontier
    · have hold2 : pr ∈ st.nodes := hold
      by_cases hc : pr.1 = cur
      · right
        have hkv : (pr.1, pr.2) ∈ st.nodes := by simpa using hold2
        rw [hc] at hkv
        have hlk : st.nodes.lookup cur = some pr.2 :=
          lookup_of_mem_nodup hinv.nodes_keys_nodup hkv
        have hdeps : stepDeps cfg fs { st with frontier := rest } cur =
            getDeps cfg fs pr.2.imports := by
          unfold stepDeps
          have hlk2 : ({ st with frontier := rest } : BuildState).nodes.lookup cur =
              some pr.2 := hlk
          rw [hlk2]
          rfl
        constructor
        · intro e he
          have he2 : e ∈ (stepDeps cfg fs { st with frontier := rest } cur).2 := by
            rw [hdeps]
            exact he
          obtain ⟨f, hf, h1, h2⟩ := extendFailures_represents _ st.failures e he2
          refine ⟨f, ?_, h1, h2⟩
          rw [foldl_addNode_failures]
          exact extendFailures_mono hf
        · intro p hp
          have hp2 : p ∈ (stepDeps cfg fs { st with frontier := rest } cur).1 := by
            rw [hdeps]
            exact hp
          by_cases hk : st.knownPaths.contains p = true
          · left
            rw [(foldl_addNode_shape cur _ _).2]
            exact foldl_insert_mem_of ((contains_true_iff _ _).mp hk)
          · by_cases hfany : st.failures.any (fun f => f.path == p) = true
            · right
              rcases List.any_eq_true.mp hfany with ⟨f, hf, hfp⟩
              refine ⟨f, ?_, beq_iff_eq.mp hfp⟩
              rw [foldl_addNode_failures]
              exact extendFailures_mono (extendFailures_mono hf)
            · have hkf : st.knownPaths.contains p = false := Bool.eq_false_iff.mpr hk
              have hff : st.failures.any (fun f => f.path == p) = false :=
                Bool.eq_false_iff.mpr hfany
              have hpfresh : p ∈ freshDeps { st with frontier := rest }
                  (stepDeps cfg fs { st with frontier := rest } cur).1 := by
                apply List.mem_filter.mpr
                refine ⟨hp2, ?_⟩
                show (!st.knownPaths.contains p &&
                  !st.failures.any (fun f => f.path == p)) = true
                rw [hkf, hff]
                rfl
              cases hnew : Asset.new fs p with
              | ok a =>
                left
                have ha : a ∈ okAssets (stepResults cfg fs
                    { st with frontier := rest } cur) :=
                  okAssets_mem_intro hpfresh hnew
                have hmem2 : a.path ∈ (okAssets (stepResults cfg fs
                    { st with frontier := rest } cur)).map (fun a => a.path) :=
                  List.mem_map_of_mem _ ha
                rw [(Asset_new_ok hnew).1] at hmem2
                rw [(foldl_addNode_shape cur _ _).2]
                exact foldl_insert_mem_el hmem2
              | error e =>
                right
                have he : e ∈ errAssets (stepResults cfg fs
                    { st with frontier := rest } cur) :=
                  errAssets_mem_intro hpfresh hnew
                obtain ⟨f, hf, h1, h2⟩ := extendFailures_represents _
                  (extendFailures st.failures
                    (stepDeps cfg fs { st with frontier := rest } cur).2) e he
                refine ⟨f, ?_, ?_⟩
                · rw [foldl_addNode_failures]
                  exact hf
                · rw [h1]
                  exact Asset_new_error_path hnew
      · have hdp_old : ∀ dp, st.depths.lookup pr.1 = some dp → dp < maxDepth := by
          intro dp hdpo
          exact hdp dp (foldl_addNode_depth_some cur _ _ hdpo)
        rcases hJ pr hold2 hdp_old with hfront | hdone
        · left
          rw [hfr] at hfront
          rcases List.mem_cons.mp hfront with he | hm
          · exact absurd he hc
          · exact foldl_addNode_frontier_mem cur _ _ hm
        · right
          obtain ⟨hfail, hres⟩ := hdone
          constructor
          · intro e he
            obtain ⟨f, hf, h1, h2⟩ := hfail e he
            refine ⟨f, ?_, h1, h2⟩
            rw [foldl_addNode_failures]
            exact extendFailures_mono (extendFailures_mono hf)
          · intro p hp2
            rcases hres p hp2 with hkm | ⟨f, hf, hfp⟩
            · left
              rw [(foldl_addNode_shape cur _ _).2]
              exact foldl_insert_mem_of hkm
            · right
              refine ⟨f, ?_, hfp⟩
              rw [foldl_addNode_failures]
              exact extendFailures_mono (extendFailures_mono hf)
    · left
      exact hfrontier

theorem buildLoop_processed {cfg : AssetDirsCfg} {fs : FS} {maxDepth : Nat} :
    ∀ (fuel : Nat) (st : BuildState), Inv fs maxDepth st →
      Processed cfg fs maxDepth st →
      Processed cfg fs maxDepth (buildLoop cfg fs maxDepth fuel st) := by
  intro fuel
  induction fuel with
  | zero => intro st _ hJ; exact hJ
  | succ fuel ih =>
    intro st hinv hJ
    rw [buildLoop]
    cases hfr : st.frontier with
    | nil => exact hJ
    | cons cur rest =>
      have hpop := Inv_pop hinv hfr
      have hd := hinv.frontier_depth cur (by rw [hfr]; exact List.mem_cons_self _ _)
      exact ih _ (stepNode_inv hpop hd) (stepNode_processed hinv hfr hJ)

theorem initState_processed {cfg : AssetDirsCfg} {fs : FS} {maxDepth : Nat} {root : Asset} :
    Processed cfg fs maxDepth (initState root maxDepth) := by
  intro pr hpr hdp
  simp only [initState, List.mem_singleton] at hpr
  subst hpr
  by_cases hmd : maxDepth > 0
  · left
    show (0 : Nat) ∈ (initState root maxDepth).frontier
    simp only [initState]
    rw [if_pos hmd]
    simp
  · exfalso
    have h0 : (initState root maxDepth).depths.lookup 0 = some 0 := lookup_singleton 0 0
    have := hdp 0 h0
    omega

theorem initState_known_covered {root : Asset} {maxDepth : Nat} :
    KnownCovered (initState root maxDepth) := by
  intro p hp
  have hp2 : p ∈ [root.path] := hp
  rw [List.mem_singleton] at hp2
  subst hp2
  exact ⟨(0, root), by simp [initState], rfl⟩

/-! ### Concrete file systems used to exercise the model -/

/-- A root asset that imports the same `/Game/Foo` reference twice, with
the target present. -/
def fsA : FS :=
  { files := [["r.uasset"], ["C", "Foo.uasset"]],
    dirs := [],
    assetImports := [(["r.uasset"], ["/Game/Foo", "/Game/Foo"]), (["C", "Foo.uasset"], [])] }

def cfgA : AssetDirsCfg := ⟨["C"], none, []⟩

/-- A root asset with one missing `/Game` reference and one missing
`/Engine` reference, in a configuration where the project content dir and
the engine content dir are the same directory, so both failures name the
same candidate path with different reasons. -/
def fsB : FS :=
  { files := [["r2.uasset"]],
    dirs := [],
    assetImports := [(["r2.uasset"], ["/Game/M", "/Engine/M"])] }

def cfgB : AssetDirsCfg := ⟨["D"], some ["D"], []⟩

def rootAssetB : Asset := ⟨["r2.uasset"], AssetOrigin.Project, ["/Game/M", "/Engine/M"]⟩

/-- The build result on `fsB`: both failures are kept because their
reasons differ even though their paths are equal. -/
def treeB : DepTree :=
  ⟨0, [(0, rootAssetB)], [],
    [⟨["D", "M.uasset"], "The asset does not exist in the game content directory"⟩,
     ⟨["D", "M.uasset"], "The asset does not exist in the engine content directory"⟩],
    1, [(0, 0)]⟩

/-- The diamond: the root imports A and B, and A and B both import X. -/
def fsC : FS :=
  { files := [["root.uasset"], ["C", "A.uasset"], ["C", "B.uasset"], ["C", "X.uasset"]],
    dirs := [],
    assetImports :=
      [(["root.uasset"], ["/Game/A", "/Game/B"]),
       (["C", "A.uasset"], ["/Game/X"]),
       (["C", "B.uasset"], ["/Game/X"]),
       (["C", "X.uasset"], [])] }

def cfgC : AssetDirsCfg := ⟨["C"], none, []⟩

def rootAssetC : Asset := ⟨["root.uasset"], AssetOrigin.Project, ["/Game/A", "/Game/B"]⟩

/-- The build result on `fsC` with depth bound 10: `B` (id 2) is popped
before `A` (id 1) because the frontier is a LIFO stack, so `X` (id 3) is
recorded as a child of `B` only; `A` keeps no edge to `X` and no failure
is recorded. -/
def treeC : DepTree :=
  ⟨0,
   [(0, rootAssetC),
    (1, ⟨["C", "A.uasset"], AssetOrigin.Project, ["/Game/X"]⟩),
    (2, ⟨["C", "B.uasset"], AssetOrigin.Project, ["/Game/X"]⟩),
    (3, ⟨["C", "X.uasset"], AssetOrigin.Project, []⟩)],
   [(0, [1, 2]), (2, [3])],
   [],
   10,
   [(0, 0), (1, 1), (2, 1), (3, 2)]⟩

/-- The build result on `fsC` with depth bound 0: the root is never
expanded. -/
def treeC0 : DepTree := ⟨0, [(0, rootAssetC)], [], [], 0, [(0, 0)]⟩

/-- A failing `/Engine` reference (engine content dir unset) whose
failure is keyed by the raw reference string, which names the same path
as the node resolved from `/Game/Engine/X` under content dir `/`. -/
def fsD : FS :=
  { files := [["/", "r.uasset"], ["/", "Engine", "X.uasset"]],
    dirs := [],
    assetImports :=
      [((["/", "r.uasset"]), ["/Game/Engine/X", "/Engine/X"]),
       ((["/", "Engine", "X.uasset"]), [])] }

def cfgD : AssetDirsCfg := ⟨["/"], none, []⟩

/-- A partial-failure scenario: the root imports one resolvable reference
(`/Game/Ok`, present) and one unresolvable reference (`/Game/Missing`,
absent). -/
def fsE : FS :=
  { files := [["rE.uasset"], ["C", "Ok.uasset"]],
    dirs := [],
    assetImports := [(["rE.uasset"], ["/Game/Ok", "/Game/Missing"]),
      (["C", "Ok.uasset"], [])] }

def cfgE : AssetDirsCfg := ⟨["C"], none, []⟩

def rootAssetE : Asset := ⟨["rE.uasset"], AssetOrigin.Project, ["/Game/Ok", "/Game/Missing"]⟩

/-- The build result on `fsE`: the build succeeds despite the failing
reference; `/Game/Ok` becomes node 1, a child of the root, and
`/Game/Missing` is listed as a failure. -/
def treeE : DepTree :=
  ⟨0,
   [(0, rootAssetE), (1, ⟨["C", "Ok.uasset"], AssetOrigin.Project, []⟩)],
   [(0, [1])],
   [⟨["C", "Missing.uasset"], "The asset does not exist in the game content directory"⟩],
   5, [(0, 0), (1, 1)]⟩

/-- Configuration and file system for the `/Game` resolution witness. -/
def cfg7 : AssetDirsCfg := ⟨["C"], none, []⟩

def fs7 : FS := ⟨[], [], []⟩

/-! ### Claim theorems -/

/-- C1 (counterexample): the claim that the node table never contains two
nodes with equal path fails when one parent imports the same path twice in
a single expansion batch: on `fsA` the root imports `/Game/Foo` twice and
the build creates two nodes with path `C/Foo.uasset`, so the node-path
list is not duplicate-free. -/
theorem C1_counterexample :
    (DepTree.build fsA ["r.uasset"] cfgA 1).map
        (fun t => t.nodes.map (fun pr => pr.2.path)) =
      Except.ok [["r.uasset"], ["C", "Foo.uasset"], ["C", "Foo.uasset"]] ∧
    (DepTree.build fsA ["r.uasset"] cfgA 1).map
        (fun t => decide (t.nodes.map (fun pr => pr.2.path)).Nodup) =
      Except.ok false :=
  ⟨rfl, rfl⟩

/-- C1 (amended): in every successful build the node table contains no
two nodes with equal path, provided every parsable asset resolves to a
duplicate-free dependency-path list (duplication across parents and
across iterations is always prevented by the known-path set; only a
duplicate inside one parent's single batch escapes the dedup). -/
theorem C1_amended_no_duplicate_paths (fs : FS) (rootPath : FilePath)
    (cfg : AssetDirsCfg) (maxDepth : Nat) (t : DepTree)
    (hok : DepTree.build fs rootPath cfg maxDepth = Except.ok t)
    (hres : ResolveNodup cfg fs) :
    (t.nodes.map (fun pr => pr.2.path)).Nodup := by
  obtain ⟨root, hA, _, hnodes, _, _, _, _⟩ := build_ok_elim hok
  rw [hnodes]
  apply buildLoop_paths_nodup hres _ _ (initState_inv hA)
  simp [initState]

/-- C1 (witness for the amended claim): the diamond build has
duplicate-free node paths. -/
theorem C1_amended_witness : (treeC.nodes.map (fun pr => pr.2.path)).Nodup :=
  C1_amended_no_duplicate_paths fsC ["root.uasset"] cfgC 10 treeC rfl
    (by unfold ResolveNodup; decide)

/-- C2 (code bug evaluation): on `fsB` the same candidate path
`D/M.uasset` fails once through the `Game` branch and once through the
`Engine` branch; both failure records are kept because the derived `Hash`
of `AssetError` covers the reason while `PartialEq` compares only the
path, so the `HashSet` does not deduplicate by path as intended. -/
theorem C2_failing_eval :
    (DepTree.build fsB ["r2.uasset"] cfgB 1).map
        (fun t => t.failures.map (fun f => f.path)) =
      Except.ok [["D", "M.uasset"], ["D", "M.uasset"]] ∧
    (DepTree.build fsB ["r2.uasset"] cfgB 1).map
        (fun t => decide (t.failures.map (fun f => f.path)).Nodup) =
      Except.ok false ∧
    (DepTree.build fsB ["r2.uasset"] cfgB 1).map
        (fun t => t.failures.map (fun f => f.reason)) =
      Except.ok ["The asset does not exist in the game content directory",
        "The asset does not exist in the engine content directory"] :=
  ⟨rfl, rfl, rfl⟩

/-- C10 (counterexample): node paths and failure paths are not always
disjoint: on `fsD` the reference `/Game/Engine/X` resolves to the file
`/Engine/X.uasset` (content dir `/`) and becomes a node, while the
reference `/Engine/X` fails with "engine content directory is not set"
and records the same path, taken from the raw reference string. -/
theorem C10_counterexample :
    (DepTree.build fsD ["/", "r.uasset"] cfgD 1).map
        (fun t => t.nodes.map (fun pr => pr.2.path)) =
      Except.ok [["/", "r.uasset"], ["/", "Engine", "X.uasset"]] ∧
    (DepTree.build fsD ["/", "r.uasset"] cfgD 1).map
        (fun t => t.failures.map (fun f => f.path)) =
      Except.ok [["/", "Engine", "X.uasset"]] ∧
    (DepTree.build fsD ["/", "r.uasset"] cfgD 1).map
        (fun t => decide (∀ f ∈ t.failures, ∀ pr ∈ t.nodes, pr.2.path ≠ f.path)) =
      Except.ok false :=
  ⟨rfl, rfl, rfl⟩

/-- C10 (amended): in every successful build, a failure that names a
non-existent path (every failed `Game`/`Engine` directory lookup does)
never shares its path with any node, because node paths are existing
files; only failures keyed by the raw reference string (unset engine dir,
`Script`, plugin-not-found) can coincide with a node path. -/
theorem C10_amended_disjoint (fs : FS) (rootPath : FilePath) (cfg : AssetDirsCfg)
    (maxDepth : Nat) (t : DepTree)
    (hok : DepTree.build fs rootPath cfg maxDepth = Except.ok t) :
    ∀ f ∈ t.failures, fs.existsPath f.path = false →
      ∀ pr ∈ t.nodes, pr.2.path ≠ f.path := by
  obtain ⟨root, hA, _, hnodes, _, _, _, _⟩ := build_ok_elim hok
  have hinv : Inv fs maxDepth (finalState cfg fs maxDepth root) := by
    unfold finalState
    exact buildLoop_inv _ _ (initState_inv hA)
  intro f _ hnex pr hpr he
  rw [hnodes] at hpr
  have hfile := hinv.nodes_file pr hpr
  rw [he] at hfile
  unfold FS.existsPath at hnex
  unfold FS.isFile at hfile
  rw [hfile] at hnex
  simp at hnex

/-- C10 (witness for the amended claim): the failure path `D/M.uasset` of
the `fsB` build does not exist on that file system, so no node of that
build carries it. -/
theorem C10_amended_witness :
    fsB.existsPath ["D", "M.uasset"] = false ∧
    ∀ pr ∈ treeB.nodes, pr.2.path ≠ ["D", "M.uasset"] :=
  ⟨rfl, C10_amended_disjoint fsB ["r2.uasset"] cfgB 1 treeB rfl
    ⟨["D", "M.uasset"], "The asset does not exist in the game content directory"⟩
    (by decide) rfl⟩

theorem buildLoop_frontier_eq_nil {cfg : AssetDirsCfg} {fs : FS} {maxDepth : Nat}
    (fuel : Nat) (st : BuildState) (h : st.frontier = []) :
    buildLoop cfg fs maxDepth fuel st = st := by
  cases fuel with
  | zero => rfl
  | succ n =>
    rw [buildLoop, h]

/-- C3: a build aborts with a propagated failure exactly when the root
asset itself cannot be read; whenever the root reads fine the build
returns a successful graph (dependency failures never abort it) that
names id 0 as the root, contains the root asset under id 0, and is
complete below the depth bound: for every node whose recorded depth
admits expansion, each failure to resolve one of its references is
collected in the returned failures (matched by path and reason), and
each of its resolved dependency paths is carried by some node of the
graph (a resolvable descendant) or named by a failure (an unreadable
file). -/
theorem C3_root_failure_aborts_only (fs : FS) (rootPath : FilePath) (cfg : AssetDirsCfg)
    (maxDepth : Nat) :
    (∀ e, DepTree.build fs rootPath cfg maxDepth = Except.error e ↔
        Asset.new fs rootPath = Except.error e) ∧
    ((Asset.new fs rootPath).isOk = true →
      (DepTree.build fs rootPath cfg maxDepth).isOk = true) ∧
    (∀ root t, Asset.new fs rootPath = Except.ok root →
      DepTree.build fs rootPath cfg maxDepth = Except.ok t →
      t.rootNodeId = 0 ∧ (0, root) ∈ t.nodes ∧
      ∀ pr ∈ t.nodes,
        (∀ dp, t.recurseDepths.lookup pr.1 = some dp → dp < t.maxRecurseDepth) →
        (∀ e ∈ (getDeps cfg fs pr.2.imports).2,
          ∃ f ∈ t.failures, f.path = e.path ∧ f.reason = e.reason) ∧
        (∀ p ∈ (getDeps cfg fs pr.2.imports).1,
          (∃ pr2 ∈ t.nodes, pr2.2.path = p) ∨ ∃ f ∈ t.failures, f.path = p)) := by
  refine ⟨fun e => build_error_iff, ?_, ?_⟩
  · intro hok
    cases hA : Asset.new fs rootPath with
    | error e =>
      rw [hA] at hok
      simp [Except.isOk, Except.toBool] at hok
    | ok root =>
      unfold DepTree.build
      rw [hA]
      rfl
  · intro root t hA hok
    obtain ⟨root2, hA2, hrid, hnodes, _, hfails, hmax, hdepths⟩ := build_ok_elim hok
    have hroots : root2 = root := by
      rw [hA] at hA2
      exact (Except.ok.inj hA2).symm
    subst hroots
    refine ⟨hrid, ?_, ?_⟩
    · rw [hnodes]
      show (0, root2) ∈
        (buildLoop cfg fs maxDepth (fuelBound fs) (initState root2 maxDepth)).nodes
      apply buildLoop_nodes_mem
      simp [initState]
    · have hproc : Processed cfg fs maxDepth (finalState cfg fs maxDepth root2) :=
        buildLoop_processed (fuelBound fs) _ (initState_inv hA2) initState_processed
      have hcov : KnownCovered (finalState cfg fs maxDepth root2) :=
        buildLoop_known_covered (fuelBound fs) _ initState_known_covered
      have hnil : (finalState cfg fs maxDepth root2).frontier = [] :=
        finalState_frontier_nil hA2
      intro pr hpr hdp
      rw [hnodes] at hpr
      have hdp2 : ∀ dp,
          (finalState cfg fs maxDepth root2).depths.lookup pr.1 = some dp →
          dp < maxDepth := by
        intro dp hldp
        have hlt := hdp dp (by rw [hdepths]; exact hldp)
        rw [hmax] at hlt
        exact hlt
      rcases hproc pr hpr hdp2 with hfront | ⟨hfail2, hres2⟩
      · rw [hnil] at hfront
        simp at hfront
      · constructor
        · intro e he
          obtain ⟨f, hf, h1, h2⟩ := hfail2 e he
          exact ⟨f, by rw [hfails]; exact hf, h1, h2⟩
        · intro p hp
          rcases hres2 p hp with hknown | ⟨f, hf, hfp⟩
          · obtain ⟨pr2, hpr2, hpath⟩ := hcov p hknown
            exact Or.inl ⟨pr2, by rw [hnodes]; exact hpr2, hpath⟩
          · exact Or.inr ⟨f, by rw [hfails]; exact hf, hfp⟩

/-- C3 (witness): a partial-failure build: on `fsE` the root imports one
resolvable and one unresolvable reference; the build still succeeds, the
resolvable reference appears as a node, the unresolvable one is listed
as the only failure, and the instantiated theorem yields the
completeness facts below the depth bound for this build. -/
theorem C3_witness :
    DepTree.build fsE ["rE.uasset"] cfgE 5 = Except.ok treeE ∧
    treeE.failures =
      [⟨["C", "Missing.uasset"], "The asset does not exist in the game content directory"⟩] ∧
    (DepTree.build fsE ["rE.uasset"] cfgE 5).isOk = true ∧
    (treeE.rootNodeId = 0 ∧ (0, rootAssetE) ∈ treeE.nodes ∧
      ∀ pr ∈ treeE.nodes,
        (∀ dp, treeE.recurseDepths.lookup pr.1 = some dp → dp < treeE.maxRecurseDepth) →
        (∀ e ∈ (getDeps cfgE fsE pr.2.imports).2,
          ∃ f ∈ treeE.failures, f.path = e.path ∧ f.reason = e.reason) ∧
        (∀ p ∈ (getDeps cfgE fsE pr.2.imports).1,
          (∃ pr2 ∈ treeE.nodes, pr2.2.path = p) ∨ ∃ f ∈ treeE.failures, f.path = p)) :=
  ⟨rfl, rfl,
   (C3_root_failure_aborts_only fsE ["rE.uasset"] cfgE 5).2.1 rfl,
   (C3_root_failure_aborts_only fsE ["rE.uasset"] cfgE 5).2.2 rootAssetE treeE rfl rfl⟩

/-- C4: in every successful build the root node's recorded depth is 0 and
every non-root node appears in the child list of some adjacency entry
whose key is the parent that discovered it, with the child's recorded
depth equal to that parent's recorded depth plus 1. -/
theorem C4_depths (fs : FS) (rootPath : FilePath) (cfg : AssetDirsCfg) (maxDepth : Nat)
    (t : DepTree) (hok : DepTree.build fs rootPath cfg maxDepth = Except.ok t) :
    t.getRecurseDepth t.rootNodeId = some 0 ∧
    ∀ pr ∈ t.nodes, pr.1 ≠ t.rootNodeId →
      ∃ q ∈ t.nodeConnections, pr.1 ∈ q.2 ∧
        ∃ dp, t.getRecurseDepth q.1 = some dp ∧ t.getRecurseDepth pr.1 = some (dp + 1) := by
  obtain ⟨root, hA, hrid, hnodes, hconns, _, _, hdepths⟩ := build_ok_elim hok
  have hinv : Inv fs maxDepth (finalState cfg fs maxDepth root) := by
    unfold finalState
    exact buildLoop_inv _ _ (initState_inv hA)
  constructor
  · unfold DepTree.getRecurseDepth
    rw [hdepths, hrid]
    exact hinv.root_depth
  · intro pr hpr hne
    rw [hnodes] at hpr
    rw [hrid] at hne
    obtain ⟨q, hq, hmem⟩ := hinv.node_parent pr hpr hne
    refine ⟨q, by rw [hconns]; exact hq, hmem, ?_⟩
    obtain ⟨dp, hdp, _, hch⟩ := hinv.conn_depth q hq
    refine ⟨dp, ?_, ?_⟩
    · unfold DepTree.getRecurseDepth
      rw [hdepths]
      exact hdp
    · unfold DepTree.getRecurseDepth
      rw [hdepths]
      exact hch pr.1 hmem

/-- C4 (witness): the depth bookkeeping of the diamond build. -/
theorem C4_witness :
    treeC.getRecurseDepth treeC.rootNodeId = some 0 ∧
    ∀ pr ∈ treeC.nodes, pr.1 ≠ treeC.rootNodeId →
      ∃ q ∈ treeC.nodeConnections, pr.1 ∈ q.2 ∧
        ∃ dp, treeC.getRecurseDepth q.1 = some dp ∧
          treeC.getRecurseDepth pr.1 = some (dp + 1) :=
  C4_depths fsC ["root.uasset"] cfgC 10 treeC rfl

/-- C5: in every successful build, only nodes whose recorded depth is
strictly below the bound own an adjacency entry (so no node at or above
the bound has recorded children), and with bound 0 the graph is exactly
the root with an empty adjacency table. -/
theorem C5_depth_bound (fs : FS) (rootPath : FilePath) (cfg : AssetDirsCfg) (maxDepth : Nat)
    (t : DepTree) (hok : DepTree.build fs rootPath cfg maxDepth = Except.ok t) :
    (∀ q ∈ t.nodeConnections, ∃ dp, t.getRecurseDepth q.1 = some dp ∧
      dp < t.maxRecurseDepth) ∧
    (t.maxRecurseDepth = 0 →
      (∃ root, Asset.new fs rootPath = Except.ok root ∧ t.nodes = [(0, root)]) ∧
        t.nodeConnections = []) := by
  obtain ⟨root, hA, hrid, hnodes, hconns, _, hmax, hdepths⟩ := build_ok_elim hok
  have hinv : Inv fs maxDepth (finalState cfg fs maxDepth root) := by
    unfold finalState
    exact buildLoop_inv _ _ (initState_inv hA)
  constructor
  · intro q hq
    rw [hconns] at hq
    obtain ⟨dp, hdp, hlt, _⟩ := hinv.conn_depth q hq
    refine ⟨dp, ?_, ?_⟩
    · unfold DepTree.getRecurseDepth
      rw [hdepths]
      exact hdp
    · rw [hmax]
      exact hlt
  · intro h0
    have hmd : maxDepth = 0 := by
      rw [← hmax]
      exact h0
    subst hmd
    have hfin : finalState cfg fs 0 root = initState root 0 := by
      unfold finalState
      exact buildLoop_frontier_eq_nil _ _ (by simp [initState])
    rw [hnodes, hconns, hfin]
    exact ⟨⟨root, hA, rfl⟩, rfl⟩

/-- C5 (witness): the bound-0 build of the diamond file system keeps only
the root and records no children. -/
theorem C5_witness :
    (∀ q ∈ treeC0.nodeConnections, ∃ dp, treeC0.getRecurseDepth q.1 = some dp ∧
      dp < treeC0.maxRecurseDepth) ∧
    (treeC0.maxRecurseDepth = 0 →
      (∃ root, Asset.new fsC ["root.uasset"] = Except.ok root ∧
        treeC0.nodes = [(0, root)]) ∧ treeC0.nodeConnections = []) :=
  C5_depth_bound fsC ["root.uasset"] cfgC 0 treeC0 rfl

/-- C6: when the resolved dependency lists mention a path at most once per
parent, that path appears at most once in the node table of any successful
build, and every node id is recorded as a child of at most one parent and
at most once overall (so a shared dependency keeps only one parent edge);
concretely, on the diamond file system the shared asset X becomes one node
recorded as a child only of B, the parent expanded first in LIFO order,
with no edge from A and no failure. -/
theorem C6_shared_dependency :
    (∀ (fs : FS) (rootPath : FilePath) (cfg : AssetDirsCfg) (maxDepth : Nat)
      (p : FilePath) (t : DepTree),
      DepTree.build fs rootPath cfg maxDepth = Except.ok t →
      ResolveCount cfg fs p →
      (t.nodes.map (fun pr => pr.2.path)).count p ≤ 1 ∧
        ∀ j : Nat, (flatChildren t.nodeConnections).count j ≤ 1) ∧
    DepTree.build fsC ["root.uasset"] cfgC 10 = Except.ok treeC := by
  constructor
  · intro fs rootPath cfg maxDepth p t hok hres
    obtain ⟨root, hA, _, hnodes, hconns, _, _, _⟩ := build_ok_elim hok
    have hinv : Inv fs maxDepth (finalState cfg fs maxDepth root) := by
      unfold finalState
      exact buildLoop_inv _ _ (initState_inv hA)
    constructor
    · rw [hnodes]
      apply buildLoop_path_count hres _ _ (initState_inv hA)
      exact le_trans (List.count_le_length _ _) (by simp [initState])
    · intro j
      rw [hconns]
      exact hinv.children_count j
  · rfl

/-- C6 (witness): the shared path of the diamond appears at most once in
the node table and every child id is recorded exactly once. -/
theorem C6_witness :
    (treeC.nodes.map (fun pr => pr.2.path)).count ["C", "X.uasset"] ≤ 1 ∧
    ∀ j : Nat, (flatChildren treeC.nodeConnections).count j ≤ 1 :=
  C6_shared_dependency.1 fsC ["root.uasset"] cfgC 10 ["C", "X.uasset"] treeC rfl
    (by unfold ResolveCount; decide)

/-- C7: a reference whose first segment is `Game` is normalized by
appending `.uasset` when missing, then resolves to exactly the project
content dir joined with the remaining segments when that path exists, and
otherwise fails naming that candidate path. -/
theorem C7_game_namespace (cfg : AssetDirsCfg) (fs : FS) (name : String)
    (rest : List String)
    (h : splitSlash ((if strEndsWith name ".uasset" then name
        else name ++ ".uasset").drop 1) = "Game" :: rest) :
    resolveOne cfg fs name =
      some (if fs.existsPath (joinPathStr cfg.contentDir (String.intercalate "/" rest))
        then Except.ok (joinPathStr cfg.contentDir (String.intercalate "/" rest))
        else Except.error ⟨joinPathStr cfg.contentDir (String.intercalate "/" rest),
          "The asset does not exist in the game content directory"⟩) ∧
    (strEndsWith name ".uasset" = false →
      (if strEndsWith name ".uasset" then name else name ++ ".uasset") =
        name ++ ".uasset") ∧
    (strEndsWith name ".uasset" = true →
      (if strEndsWith name ".uasset" then name else name ++ ".uasset") = name) := by
  refine ⟨?_, ?_, ?_⟩
  · simp only [resolveOne]
    rw [h]
    rfl
  · intro hf
    rw [if_neg (by simp [hf])]
  · intro ht
    rw [if_pos ht]

/-- C7 (witness): `/Game/Foo/Bar` on an empty file system is normalized
to `/Game/Foo/Bar.uasset` and fails naming `C/Foo/Bar.uasset`. -/
theorem C7_witness :
    splitSlash ((if strEndsWith "/Game/Foo/Bar" ".uasset" then "/Game/Foo/Bar"
        else "/Game/Foo/Bar" ++ ".uasset").drop 1) = "Game" :: ["Foo", "Bar.uasset"] ∧
    resolveOne cfg7 fs7 "/Game/Foo/Bar" =
      some (if fs7.existsPath (joinPathStr cfg7.contentDir
          (String.intercalate "/" ["Foo", "Bar.uasset"]))
        then Except.ok (joinPathStr cfg7.contentDir
          (String.intercalate "/" ["Foo", "Bar.uasset"]))
        else Except.error ⟨joinPathStr cfg7.contentDir
            (String.intercalate "/" ["Foo", "Bar.uasset"]),
          "The asset does not exist in the game content directory"⟩) :=
  ⟨by decide, (C7_game_namespace cfg7 fs7 "/Game/Foo/Bar" ["Foo", "Bar.uasset"]
    (by decide)).1⟩

/-- C8: for every fixed finite file system and every readable root asset,
the work-list loop drains its frontier within the fuel bound computed from
the file system, because known paths only grow and only unknown paths
create nodes; so the build terminates with an empty frontier. -/
theorem C8_termination (cfg : AssetDirsCfg) (fs : FS) (maxDepth : Nat)
    (rootPath : FilePath) (root : Asset)
    (h : Asset.new fs rootPath = Except.ok root) :
    (finalState cfg fs maxDepth root).frontier = [] :=
  finalState_frontier_nil h

/-- C8 (witness): the diamond build drains its frontier. -/
theorem C8_witness :
    Asset.new fsC ["root.uasset"] = Except.ok rootAssetC ∧
    (finalState cfgC fsC 10 rootAssetC).frontier = [] :=
  ⟨rfl, C8_termination cfgC fsC 10 ["root.uasset"] rootAssetC rfl⟩

/-- C9: origin classification is deterministic (two reads of the same
path classify identically), equals the pairing of the is-engine and
is-plugin tests through the four-way table, and that table is a 1:1
mapping from the pair of booleans onto the four origin values. -/
theorem C9_origin_classification (fs : FS) :
    (∀ p a b, Asset.new fs p = Except.ok a → Asset.new fs p = Except.ok b →
      a.origin = b.origin) ∧
    (∀ p a, Asset.new fs p = Except.ok a →
      a.origin = originOfPair (isEnginePathFull fs p).fst (isPluginPath fs p)) ∧
    (∀ b₁ b₂ b₁' b₂', originOfPair b₁ b₂ = originOfPair b₁' b₂' → b₁ = b₁' ∧ b₂ = b₂') := by
  refine ⟨?_, ?_, ?_⟩
  · intro p a b ha hb
    rw [ha] at hb
    rw [Except.ok.inj hb]
  · intro p a ha
    exact (Asset_new_ok ha).2.2.2.2
  · intro b₁ b₂ b₁' b₂' h
    cases b₁ <;> cases b₂ <;> cases b₁' <;> cases b₂' <;> simp_all [originOfPair]

/-- C9 (witness): the diamond root classifies as a Project asset through
the table. -/
theorem C9_witness :
    rootAssetC.origin = originOfPair (isEnginePathFull fsC ["root.uasset"]).fst
      (isPluginPath fsC ["root.uasset"]) :=
  (C9_origin_classification fsC).2.1 ["root.uasset"] rootAssetC rfl

end UA
